import Mathlib

/-!
Verification of the LoRA merge engine (`Comfyui_LoraCombine`).

Shallow embedding of `src/info/merge_methods.py`, `src/info/check_compatibility.py`
and the orchestrator `src/combine_loras.py`.  Tensors are modelled as a shape
(list of dimension sizes) together with row-major flattened data over a linear
ordered field; a loaded LoRA state dict (`TensorMap` in the spec) is an
association list from string keys to tensors.  Python exceptions are modelled
by `Option` (a `none` result corresponds to the call raising).  The call
`torch.sqrt` is modelled by an explicit function parameter `sqrtFn`.
-/

/-- A tensor: a shape and its row-major flattened data. -/
structure Tensor (α : Type) where
  shape : List ℕ
  data : List α
deriving DecidableEq

/-- Well-formedness: the flattened data has exactly as many entries as the
shape prescribes. -/
def Tensor.wf {α : Type} (t : Tensor α) : Prop := t.data.length = t.shape.prod

instance {α : Type} (t : Tensor α) : Decidable t.wf := by
  unfold Tensor.wf; infer_instance

/-- Row-major linear offset of a multi-index in a shape. -/
def flatIndex : List ℕ → List ℕ → ℕ
  | _ :: ds, i :: is => i * ds.prod + flatIndex ds is
  | _, _ => 0

/-- All multi-indices of a shape, enumerated in row-major order. -/
def indicesOf : List ℕ → List (List ℕ)
  | [] => [[]]
  | d :: ds => ((List.range d).map (fun i => (indicesOf ds).map (fun is => i :: is))).flatten

/-- A multi-index is inside a shape (used to model the origin-aligned
sub-block assignment `padded[tuple(slice(0, s) ...)] = val`). -/
def inBounds (idx shape : List ℕ) : Bool :=
  idx.length == shape.length && (idx.zip shape).all (fun p => decide (p.1 < p.2))

/-- A multi-index is valid for a shape. -/
def validIdx (idx shape : List ℕ) : Prop :=
  idx.length = shape.length ∧ ∀ p ∈ idx.zip shape, p.1 < p.2

instance (idx shape : List ℕ) : Decidable (validIdx idx shape) := by
  unfold validIdx; infer_instance

variable {α : Type} [LinearOrderedField α]

/-- Entry of a tensor at a multi-index (0 outside the data). -/
def Tensor.get (t : Tensor α) (idx : List ℕ) : α :=
  t.data.getD (flatIndex t.shape idx) 0

/-- Scalar multiplication `c * t`, elementwise. -/
def Tensor.scale (t : Tensor α) (c : α) : Tensor α :=
  ⟨t.shape, t.data.map (fun x => c * x)⟩

/-- Elementwise addition of two tensors of the same shape. -/
def Tensor.add (t1 t2 : Tensor α) : Tensor α :=
  ⟨t1.shape, List.zipWith (fun x y => x + y) t1.data t2.data⟩

/-- `torch.zeros(shape)`. -/
def Tensor.zeros (shape : List ℕ) : Tensor α :=
  ⟨shape, List.replicate shape.prod 0⟩

/-- `torch.zeros_like(t)`. -/
def Tensor.zerosLike (t : Tensor α) : Tensor α :=
  ⟨t.shape, List.replicate t.data.length 0⟩

/-- Zero-pad a tensor to a (larger) shape: the original values sit in the
origin-aligned sub-block, the remainder is zero.  Models
`padded = torch.zeros(max_shape); padded[tuple(slice(0, s) for s in t.shape)] = t`. -/
def Tensor.pad (t : Tensor α) (sh : List ℕ) : Tensor α :=
  ⟨sh, (indicesOf sh).map (fun idx => if inBounds idx t.shape then t.get idx else 0)⟩

/-- Elementwise addition as torch performs it on two operands that must share
a shape; `none` models the `RuntimeError` raised on (non-broadcastable)
mismatched shapes.  Broadcasting is not modelled: every use below is either on
equal shapes or at inputs where torch raises. -/
def Tensor.addStrict (t1 t2 : Tensor α) : Option (Tensor α) :=
  if t1.shape = t2.shape then some (t1.add t2) else none

/-- A loaded LoRA state dict: keys to tensors. -/
abbrev TMap (α : Type) := List (String × Tensor α)

/-- Keys of the map, in entry order. -/
def TMap.keys (m : TMap α) : List String := m.map Prod.fst

/-- `dict.get(key)`: value at the first entry whose key matches. -/
def TMap.find (m : TMap α) (k : String) : Option (Tensor α) :=
  (m.find? (fun p => p.1 == k)).map Prod.snd

/-- `merged[key] = v`: overwrite-or-append, python-dict style. -/
def TMap.insert (m : TMap α) (k : String) (v : Tensor α) : TMap α :=
  m.filter (fun p => !(p.1 == k)) ++ [(k, v)]

/-- `set(d1.keys()) | set(d2.keys())`, enumerated deterministically. -/
def allKeys (d1 d2 : TMap α) : List String :=
  d1.keys ++ d2.keys.filter (fun k => !(d1.keys.contains k))

/-- Combining one key present in both dicts inside `linear_merge_method`
(lines 24-38 of merge_methods.py): equal shapes add directly; shapes of equal
rank are zero-padded to the elementwise maximum shape first; a rank mismatch
makes the sub-block assignment raise `IndexError`, modelled by `none`. -/
def combineVals (s1 s2 : α) (v1 v2 : Tensor α) : Option (Tensor α) :=
  if v1.shape = v2.shape then some ((v1.scale s1).add (v2.scale s2))
  else if v1.shape.length = v2.shape.length then
    let maxShape := List.zipWith max v1.shape v2.shape
    let w1 := if v1.shape = maxShape then v1 else v1.pad maxShape
    let w2 := if v2.shape = maxShape then v2 else v2.pad maxShape
    some ((w1.scale s1).add (w2.scale s2))
  else none

/-- One key of the linear merge (body of the loop in `linear_merge_method`). -/
def mergeKey (d1 d2 : TMap α) (s1 s2 : α) (k : String) : Option (Tensor α) :=
  match d1.find k, d2.find k with
  | some v1, some v2 => combineVals s1 s2 v1 v2
  | some v1, none => some (v1.scale s1)
  | none, some v2 => some (v2.scale s2)
  | none, none => none

/-- The `for key in all_keys` loop: build the merged dict entry by entry,
raising (`none`) as soon as one key raises. -/
def buildMerged (f : String → Option (Tensor α)) : List String → Option (TMap α)
  | [] => some []
  | k :: ks =>
    match f k with
    | none => none
    | some t => (buildMerged f ks).map (fun ms => (k, t) :: ms)

/-- `linear_merge_method` (merge_methods.py lines 5-46). -/
def linear_merge_method (d1 d2 : TMap α) (s1 s2 : α) : Option (TMap α) :=
  buildMerged (mergeKey d1 d2 s1 s2) (allKeys d1 d2)

/-- `weighted_average_method` (merge_methods.py lines 193-214). -/
def weighted_average_method (d1 d2 : TMap α) (s1 s2 : α) : Option (TMap α) :=
  let total_weight := |s1| + |s2|
  if total_weight = 0 then some []
  else linear_merge_method d1 d2 (s1 / total_weight) (s2 / total_weight)

/-- Suffix/pattern `.lora_down.weight`. -/
def sfx_down : String := ".lora_down.weight"

/-- Suffix/pattern `.lora_up.weight`. -/
def sfx_up : String := ".lora_up.weight"

/-- Suffix/pattern `.lora_A`. -/
def sfx_A : String := ".lora_A"

/-- Suffix/pattern `.lora_B`. -/
def sfx_B : String := ".lora_B"

/-- Suffix/pattern `.alpha`. -/
def sfx_alpha : String := ".alpha"

/-- Pattern `q_proj`. -/
def pat_q : String := "q_proj"

/-- Pattern `k_proj`. -/
def pat_k : String := "k_proj"

/-- Pattern `v_proj`. -/
def pat_v : String := "v_proj"

/-- Pattern `.weight`. -/
def pat_weight : String := ".weight"

/-- Contiguous-subsequence test on character lists. -/
def containsSub (needle : List Char) : List Char → Bool
  | [] => needle.isEmpty
  | c :: rest => needle.isPrefixOf (c :: rest) || containsSub needle rest

/-- Python `pat in hay` on strings. -/
def strContains (hay pat : String) : Bool := containsSub pat.data hay.data

/-- Python `s.endswith(suf)`. -/
def strEndsWith (s suf : String) : Bool := suf.data.isSuffixOf s.data

/-- Python `s.startswith(p)`. -/
def strStartsWith (s p : String) : Bool := p.data.isPrefixOf s.data

/-- Python `s[:-len(suf)]`. -/
def strDropSuffix (s suf : String) : String :=
  String.mk (s.data.take (s.data.length - suf.data.length))

/-- Lexicographic order on character lists (by code point). -/
def lexLe : List Char → List Char → Bool
  | [], _ => true
  | _ :: _, [] => false
  | a :: as, b :: bs =>
    if a.toNat < b.toNat then true
    else if b.toNat < a.toNat then false
    else lexLe as bs

/-- Lexicographic order on strings. -/
def strLe (a b : String) : Bool := lexLe a.data b.data

/-- Insert into a sorted list of strings. -/
def insertSorted (x : String) : List String → List String
  | [] => [x]
  | y :: ys => if strLe x y then x :: y :: ys else y :: insertSorted x ys

/-- Python `sorted` on a list of strings. -/
def sortStrings (l : List String) : List String := l.foldr insertSorted []

/-- The LoRA type tags of `detect_lora_type`. -/
inductive LoraTypeTag where
  | standard_lora
  | peft_lora
  | transformer_lora
  | generic_weights
  | unknown
deriving DecidableEq

/-- `detect_lora_type` (check_compatibility.py lines 63-79): ordered pattern
precedence over the key set. -/
def detect_lora_type (keys : List String) : LoraTypeTag :=
  if keys.any (fun k => strContains k sfx_down) then LoraTypeTag.standard_lora
  else if keys.any (fun k => strContains k sfx_A || strContains k sfx_B) then LoraTypeTag.peft_lora
  else if keys.any (fun k => strContains k pat_q || strContains k pat_k || strContains k pat_v) then
    LoraTypeTag.transformer_lora
  else if keys.any (fun k => strContains k pat_weight) then LoraTypeTag.generic_weights
  else LoraTypeTag.unknown

/-- Issues a compatibility check can report (the human-readable strings of the
source, by identity). -/
inductive Issue where
  | typeMismatch (t1 t2 : LoraTypeTag)
  | noCommonKeys
  | dimMismatch (key : String) (s1 s2 : List ℕ)
deriving DecidableEq

/-- The `compatibility_info` dictionary built on the success path. -/
structure ReportData where
  lora1_type : LoraTypeTag
  lora2_type : LoraTypeTag
  common_keys : ℕ
  unique_keys1 : ℕ
  unique_keys2 : ℕ
  total_keys1 : ℕ
  total_keys2 : ℕ
  issues : List Issue
  is_compatible : Bool
deriving DecidableEq

/-- The second component of `check_lora_compatibility`: either the info
dictionary, or — on the `except` path — the dictionary holding the single
error string. -/
inductive CompatInfo where
  | report (d : ReportData)
  | loadError (msg : String)
deriving DecidableEq

/-- The issues list stored in a report (none on the load-error variant). -/
def CompatInfo.issuesOf : CompatInfo → Option (List Issue)
  | CompatInfo.report d => some d.issues
  | CompatInfo.loadError _ => none

/-- The `is_compatible` field stored in a report. -/
def CompatInfo.compatOf : CompatInfo → Option Bool
  | CompatInfo.report d => some d.is_compatible
  | CompatInfo.loadError _ => none

/-- `check_dimension_compatibility` (check_compatibility.py lines 82-104),
on the already-loaded maps: compare shapes of the first 5 common keys. -/
def check_dimension_compatibility (m1 m2 : TMap α) (common : List String) : List Issue :=
  ((common.take 5).map (fun k =>
    match m1.find k, m2.find k with
    | some t1, some t2 =>
      if t1.shape ≠ t2.shape then [Issue.dimMismatch k t1.shape t2.shape] else []
    | _, _ => [])).flatten

/-- `check_lora_compatibility` (check_compatibility.py lines 5-60).  The two
sources arrive as load results; `Except.error e` models `safe_open` raising,
which the function's `except` clause turns into
`(False, {"error": str(e)}, "unknown")`. -/
def check_lora_compatibility (r1 r2 : Except String (TMap α)) :
    Bool × CompatInfo × LoraTypeTag :=
  match r1 with
  | Except.error e => (false, CompatInfo.loadError e, LoraTypeTag.unknown)
  | Except.ok m1 =>
    match r2 with
    | Except.error e => (false, CompatInfo.loadError e, LoraTypeTag.unknown)
    | Except.ok m2 =>
      let keys1 := m1.keys.dedup
      let keys2 := m2.keys.dedup
      let t1 := detect_lora_type keys1
      let t2 := detect_lora_type keys2
      let common := keys1.filter (fun k => keys2.contains k)
      let issues0 : List Issue := if t1 ≠ t2 then [Issue.typeMismatch t1 t2] else []
      let compat0 : Bool := decide (t1 = t2)
      let issues1 := issues0 ++ (if common.length = 0 then [Issue.noCommonKeys] else [])
      let compat1 : Bool := if common.length = 0 then false else compat0
      let step3 :=
        if compat1 then
          let dims := check_dimension_compatibility m1 m2 common
          if dims.isEmpty then (issues1, compat1) else (issues1 ++ dims, false)
        else (issues1, compat1)
      (step3.2,
       CompatInfo.report
         ⟨t1, t2, common.length,
          (keys1.filter (fun k => !(keys2.contains k))).length,
          (keys2.filter (fun k => !(keys1.contains k))).length,
          keys1.length, keys2.length, step3.1, step3.2⟩,
       t1)

/-- The per-module accumulator of `concatenation_merge_method`: the scaled
down/up matrices collected so far, the summed rank, the `in_features` and
`out_features` of the first accepted source, and the `has_alpha` flag. -/
structure Accum (α : Type) where
  A_list : List (Tensor α)
  B_list : List (Tensor α)
  new_r : ℕ
  dims : Option (ℕ × ℕ)
  has_alpha : Bool
deriving DecidableEq

/-- Initial accumulator for one prefix/pattern attempt. -/
def emptyAccum : Accum α := ⟨[], [], 0, none, false⟩

/-- `torch.cat(ts, dim=0)` on 2-D tensors of shapes `[r_i, n]`. -/
def catDim0 (ts : List (Tensor α)) : Tensor α :=
  ⟨[(ts.map (fun t => t.shape.headD 0)).sum, (ts.head?.map (fun t => t.shape.getD 1 0)).getD 0],
   (ts.map (fun t => t.data)).flatten⟩

/-- Row `i` of a 2-D row-major tensor. -/
def matRow (t : Tensor α) (i : ℕ) : List α :=
  (t.data.drop (i * t.shape.getD 1 0)).take (t.shape.getD 1 0)

/-- `torch.cat(ts, dim=1)` on 2-D tensors of shapes `[m, r_i]`. -/
def catDim1 (ts : List (Tensor α)) : Tensor α :=
  let m := (ts.head?.map (fun t => t.shape.headD 0)).getD 0
  ⟨[m, (ts.map (fun t => t.shape.getD 1 0)).sum],
   ((List.range m).map (fun i => (ts.map (fun t => matRow t i)).flatten)).flatten⟩

/-- Matrix product `b @ a` for `b : [m, k]` and `a : [k, n]` (the reconstructed
dense update `up @ down` that claim C1 speaks about). -/
def matMul (b a : Tensor α) : Tensor α :=
  let m := b.shape.headD 0
  let k := a.shape.headD 0
  let n := a.shape.getD 1 0
  ⟨[m, n],
   ((List.range m).map (fun i =>
     (List.range n).map (fun j =>
       ((List.range k).map (fun t => b.get [i, t] * a.get [t, j])).sum))).flatten⟩

/-- Scaling and appending of one accepted source (merge_methods.py lines
132-146): `s = weight * scaling`; skip if `s == 0`; otherwise multiply both
matrices by `sign(s) * sqrt(|s|)` and append. -/
def finishSource (sqrtFn : α → α) (w scaling : α) (acc : Accum α) (ri : ℕ) (A B : Tensor α) :
    Option (Accum α) :=
  let s := w * scaling
  if s = 0 then some acc
  else
    let sqrt_s := if s < 0 then -(sqrtFn |s|) else sqrtFn |s|
    some { acc with
      A_list := acc.A_list ++ [A.scale sqrt_s],
      B_list := acc.B_list ++ [B.scale sqrt_s],
      new_r := acc.new_r + ri }

/-- Alpha handling for one source (merge_methods.py lines 124-130):
`.item()` raises unless the alpha tensor has exactly one element (`none`), and
`alpha / r_i` raises on `r_i = 0`; otherwise `scaling = alpha / r_i` and
`has_alpha` is set. -/
def processAlpha (sqrtFn : α → α) (d : TMap α) (w : α) (ak : String) (acc : Accum α)
    (ri : ℕ) (A B : Tensor α) : Option (Accum α) :=
  match d.find ak with
  | some t =>
    if t.data.length = 1 then
      if ri = 0 then none
      else finishSource sqrtFn w (t.data.headD 0 / (ri : α)) { acc with has_alpha := true } ri A B
    else none
  | none => finishSource sqrtFn w 1 acc ri A B

/-- One source of the per-pattern loop (merge_methods.py lines 102-146).
Sources with strength 0 are skipped outright; missing keys, non-2-D matrices,
a rank mismatch between down and up, or disagreeing `in/out` features skip the
source (`continue`); `A.shape[0]` on a 0-dimensional tensor raises (`none`).
Note that `in_features`/`out_features` and `has_alpha` are updated even for a
source later skipped because `s == 0`, exactly as in the source. -/
def processSource (sqrtFn : α → α) (d : TMap α) (w : α) (dk uk ak : String) (acc : Accum α) :
    Option (Accum α) :=
  if w = 0 then some acc
  else
    match d.find dk, d.find uk with
    | some A, some B =>
      match A.shape with
      | [] => none
      | ri :: _ =>
        if A.shape.length ≠ 2 ∨ B.shape.length ≠ 2 then some acc
        else if ri ≠ B.shape.getD 1 0 then some acc
        else
          match acc.dims with
          | some (i0, o0) =>
            if i0 ≠ A.shape.getD 1 0 ∨ o0 ≠ B.shape.headD 0 then some acc
            else processAlpha sqrtFn d w ak acc ri A B
          | none =>
            processAlpha sqrtFn d w ak
              { acc with dims := some (A.shape.getD 1 0, B.shape.headD 0) } ri A B
    | _, _ => some acc

/-- One naming pattern for one prefix (merge_methods.py lines 89-160): collect
both sources, and emit the concatenated entries when at least one source with
positive total rank was accepted (`some entries`); `none` (inner) means the
pattern produced no merge for this prefix. -/
def mergePrefixPattern (sqrtFn : α → α) (d1 d2 : TMap α) (s1 s2 : α) (dk uk ak : String) :
    Option (Option (List (String × Tensor α))) := do
  let a1 ← processSource sqrtFn d1 s1 dk uk ak emptyAccum
  let a2 ← processSource sqrtFn d2 s2 dk uk ak a1
  if 0 < a2.new_r ∧ a2.A_list ≠ [] ∧ a2.B_list ≠ [] then
    pure (some ([(dk, catDim0 a2.A_list), (uk, catDim1 a2.B_list)] ++
      (if a2.has_alpha then [(ak, Tensor.mk [] [(a2.new_r : α)])] else [])))
  else
    pure none

/-- Insert emitted entries into the merged dict in order. -/
def insertEntries (m : TMap α) (es : List (String × Tensor α)) : TMap α :=
  es.foldl (fun acc p => acc.insert p.1 p.2) m

/-- Direct linear combination of one key as done by the two raw fallback
passes of `concatenation_merge_method` (no padding): the outer `none` models
torch raising on a shape-mismatched addition, the inner `none` means the key
is silently skipped (both values absent). -/
def rawPairCombine (v1? v2? : Option (Tensor α)) (s1 s2 : α) : Option (Option (Tensor α)) :=
  match v1?, v2? with
  | some v1, some v2 => ((v1.scale s1).addStrict (v2.scale s2)).map some
  | some v1, none => some (some (v1.scale s1))
  | none, some v2 => some (some (v2.scale s2))
  | none, none => some none

/-- Per-prefix linear fallback (merge_methods.py lines 162-174): every key of
the first dict that starts with the prefix is combined directly. -/
def prefixFallback (d1 d2 : TMap α) (s1 s2 : α) (pfx : String) :
    List String → TMap α → Option (TMap α)
  | [], m => some m
  | k :: ks, m =>
    if strStartsWith k pfx then do
      match ← rawPairCombine (d1.find k) (d2.find k) s1 s2 with
      | some t => prefixFallback d1 d2 s1 s2 pfx ks (m.insert k t)
      | none => prefixFallback d1 d2 s1 s2 pfx ks m
    else prefixFallback d1 d2 s1 s2 pfx ks m

/-- Handling of one module prefix (merge_methods.py lines 80-174): try the two
naming patterns in order, and fall back to the per-prefix linear combination
when neither produced a merge. -/
def processPrefix (sqrtFn : α → α) (d1 d2 : TMap α) (s1 s2 : α) (pfx : String) (m : TMap α) :
    Option (TMap α) := do
  match ← mergePrefixPattern sqrtFn d1 d2 s1 s2 (pfx ++ sfx_down) (pfx ++ sfx_up)
      (pfx ++ sfx_alpha) with
  | some entries => pure (insertEntries m entries)
  | none =>
    match ← mergePrefixPattern sqrtFn d1 d2 s1 s2 (pfx ++ sfx_A) (pfx ++ sfx_B)
        (pfx ++ sfx_alpha) with
    | some entries => pure (insertEntries m entries)
    | none => prefixFallback d1 d2 s1 s2 pfx d1.keys m

/-- Fold of `processPrefix` over the sorted prefixes. -/
def processPrefixes (sqrtFn : α → α) (d1 d2 : TMap α) (s1 s2 : α) :
    List String → TMap α → Option (TMap α)
  | [], m => some m
  | pfx :: rest, m => do
    processPrefixes sqrtFn d1 d2 s1 s2 rest (← processPrefix sqrtFn d1 d2 s1 s2 pfx m)

/-- Final catch-all pass (merge_methods.py lines 176-188): every union key not
yet present is combined directly. -/
def finalPass (d1 d2 : TMap α) (s1 s2 : α) : List String → TMap α → Option (TMap α)
  | [], m => some m
  | k :: ks, m =>
    if m.keys.contains k then finalPass d1 d2 s1 s2 ks m
    else do
      match ← rawPairCombine (d1.find k) (d2.find k) s1 s2 with
      | some t => finalPass d1 d2 s1 s2 ks (m.insert k t)
      | none => finalPass d1 d2 s1 s2 ks m

/-- Module prefixes found in either dict (merge_methods.py lines 62-71),
deduplicated (python collects them in a `set`). -/
def collectPrefixes (d1 d2 : TMap α) : List String :=
  ((d1.keys ++ d2.keys).filterMap (fun k =>
    if strEndsWith k sfx_down then some (strDropSuffix k sfx_down)
    else if strEndsWith k sfx_A then some (strDropSuffix k sfx_A)
    else none)).dedup

/-- `concatenation_merge_method` (merge_methods.py lines 49-190). -/
def concatenation_merge_method (sqrtFn : α → α) (d1 d2 : TMap α) (s1 s2 : α) :
    Option (TMap α) :=
  let pfxs := collectPrefixes d1 d2
  if pfxs.isEmpty then linear_merge_method d1 d2 s1 s2
  else do
    finalPass d1 d2 s1 s2 (allKeys d1 d2)
      (← processPrefixes sqrtFn d1 d2 s1 s2 (sortStrings pfxs) [])

/-- Registry name of the linear method. -/
def mname_linear : String := "linear"

/-- Registry name of the concatenation method. -/
def mname_concat : String := "concatenation"

/-- Registry name of the weighted-average method. -/
def mname_weighted : String := "weighted_average"

/-- A method name outside the registry. -/
def mname_bogus : String := "nosuchmethod"

/-- The keys of the `MERGE_METHODS` registry. -/
def mergeMethodNames : List String := [mname_linear, mname_concat, mname_weighted]

/-- Registry dispatch `MERGE_METHODS[name]["function"](...)`. -/
def runMergeMethod (sqrtFn : α → α) (name : String) (d1 d2 : TMap α) (s1 s2 : α) :
    Option (TMap α) :=
  if name = mname_linear then linear_merge_method d1 d2 s1 s2
  else if name = mname_concat then concatenation_merge_method sqrtFn d1 d2 s1 s2
  else if name = mname_weighted then weighted_average_method d1 d2 s1 s2
  else none

/-- `CombineLoras._fallback_linear_merge` (combine_loras.py lines 98-114): the
original linear merge, with `zeros_like` defaults for one-sided keys and a raw
(unpadded) addition for common keys. -/
def fallbackKey (d1 d2 : TMap α) (s1 s2 : α) (k : String) : Option (Tensor α) :=
  match d1.find k, d2.find k with
  | some v1, some v2 => (v1.scale s1).addStrict (v2.scale s2)
  | some v1, none => some ((v1.scale s1).add ((Tensor.zerosLike v1).scale s2))
  | none, some v2 => some (((Tensor.zerosLike v2).scale s1).add (v2.scale s2))
  | none, none => none

/-- `CombineLoras._fallback_linear_merge` (combine_loras.py lines 98-114), see
`fallbackKey` for the per-key rule. -/
def CombineLoras.fallback_linear_merge (d1 d2 : TMap α) (s1 s2 : α) : Option (TMap α) :=
  buildMerged (fallbackKey d1 d2 s1 s2) (allKeys d1 d2)

/-- The merge-dispatch step of `CombineLoras.combine` (combine_loras.py lines
80-94), after both LoRAs are loaded.  The boolean records whether the
fallback warning (lines 87-88) was printed: `true` only on the
strategy-failure path; a registered method that succeeds, and the
unknown-method fallback (lines 92-94), print no warning. -/
def CombineLoras.combine (sqrtFn : α → α) (name : String) (d1 d2 : TMap α) (s1 s2 : α) :
    Option (TMap α) × Bool :=
  if name ∈ mergeMethodNames then
    match runMergeMethod sqrtFn name d1 d2 s1 s2 with
    | some m => (some m, false)
    | none => (CombineLoras.fallback_linear_merge d1 d2 s1 s2, true)
  else (CombineLoras.fallback_linear_merge d1 d2 s1 s2, false)

/-- Integer square root on rationals (exact on squares of naturals, which is
all the concrete witnesses evaluate it at). -/
def qSqrt (x : ℚ) : ℚ := (Nat.sqrt x.num.toNat : ℚ)

/-- Key `x.lora_down.weight`. -/
def key_xd : String := "x.lora_down.weight"

/-- Key `x.lora_up.weight`. -/
def key_xu : String := "x.lora_up.weight"

/-- Key `x.alpha`. -/
def key_xa : String := "x.alpha"

/-- Key `y`. -/
def key_y : String := "y"

/-- Key `a`. -/
def key_a : String := "a"

/-- Key `b`. -/
def key_b : String := "b"

/-- Key `b.q_proj`. -/
def key_qp : String := "b.q_proj"

/-- An error message standing for a failed `safe_open`. -/
def msg_io : String := "file not found"

/-- A single-module LoRA with rank 1, `in = out = 1`, `A = B = [[1]]`. -/
def c1map1 : TMap ℚ := [(key_xd, Tensor.mk [1, 1] [1]), (key_xu, Tensor.mk [1, 1] [1])]

/-- A second copy of the same single-module LoRA. -/
def c1map2 : TMap ℚ := [(key_xd, Tensor.mk [1, 1] [1]), (key_xu, Tensor.mk [1, 1] [1])]

/-- The value `concatenation_merge_method qSqrt c1map1 c1map2 (-1) 1` computes. -/
def c1merged : TMap ℚ := [(key_xd, Tensor.mk [2, 1] [-1, 1]), (key_xu, Tensor.mk [1, 2] [-1, 1])]

/-- Map with a shape-mismatched common key and a one-sided key. -/
def c2map1 : TMap ℚ := [(key_a, Tensor.mk [2] [1, 2]), (key_y, Tensor.mk [1, 2] [1, 2])]

/-- Its partner: common key `a` with larger shape, extra key `b`. -/
def c2map2 : TMap ℚ := [(key_a, Tensor.mk [3] [3, 4, 5]), (key_b, Tensor.mk [2] [6, 7])]

/-- Valid single-module LoRA with a malformed (2-element) alpha tensor and an
extra key `y` of shape `[2]`. -/
def c3map1 : TMap ℚ :=
  [(key_xd, Tensor.mk [1, 1] [1]), (key_xu, Tensor.mk [1, 1] [1]),
   (key_xa, Tensor.mk [2] [1, 1]), (key_y, Tensor.mk [2] [1, 1])]

/-- Its partner: same module keys, and `y` with the incompatible shape `[3]`. -/
def c3map2 : TMap ℚ :=
  [(key_xd, Tensor.mk [1, 1] [1]), (key_xu, Tensor.mk [1, 1] [1]),
   (key_y, Tensor.mk [3] [1, 1, 1])]

/-- Small one-key map. -/
def wmap1 : TMap ℚ := [(key_a, Tensor.mk [2] [1, 2])]

/-- Small one-key map with the same key and shape as `wmap1`. -/
def wmap2 : TMap ℚ := [(key_a, Tensor.mk [2] [3, 4])]

/-- Key list with a `.lora_down.weight` key and a `q_proj` key. -/
def c8keys1 : List String := [key_xd, key_qp]

/-- The same key set in the reverse enumeration order. -/
def c8keys2 : List String := [key_qp, key_xd]

/-- A `standard_lora` map. -/
def c9map1 : TMap ℚ := [(key_xd, Tensor.mk [1] [1])]

/-- A `transformer_lora` map, key-disjoint from `c9map1`. -/
def c9map2 : TMap ℚ := [(key_qp, Tensor.mk [1] [1])]

/-- A `standard_lora` map sharing the key `b.q_proj` with `c9map2`. -/
def c9map3 : TMap ℚ := [(key_xd, Tensor.mk [1] [1]), (key_qp, Tensor.mk [1] [1])]

/-- One-key map for the union-of-keys witness. -/
def c10map1 : TMap ℚ := [(key_a, Tensor.mk [1] [2])]

/-- Key-disjoint partner of `c10map1`. -/
def c10map2 : TMap ℚ := [(key_b, Tensor.mk [1] [3])]

/-- `linear_merge_method c10map1 c10map2 0 5`. -/
def c10merged : TMap ℚ := [(key_a, Tensor.mk [1] [0]), (key_b, Tensor.mk [1] [15])]

theorem getD_eq_get? {β : Type} (l : List β) (n : ℕ) (d : β) :
    l.getD n d = (l.get? n).getD d := by
  induction l generalizing n with
  | nil => cases n <;> rfl
  | cons a t ih => cases n <;> simp [List.getD, ih]

theorem map_mul_getD (c : α) (l : List α) (n : ℕ) :
    (l.map (fun x => c * x)).getD n 0 = c * l.getD n 0 := by
  induction l generalizing n with
  | nil => cases n <;> simp [List.getD]
  | cons a t ih =>
    cases n with
    | zero => simp [List.getD]
    | succ n =>
      rw [List.map_cons, List.getD_cons_succ, List.getD_cons_succ]
      exact ih n

theorem zipWith_add_getD (l1 l2 : List α) (h : l1.length = l2.length) (n : ℕ) :
    (List.zipWith (fun x y => x + y) l1 l2).getD n 0 = l1.getD n 0 + l2.getD n 0 := by
  induction l1 generalizing l2 n with
  | nil =>
    cases l2 with
    | nil => cases n <;> simp [List.getD]
    | cons b t2 => simp at h
  | cons a t1 ih =>
    cases l2 with
    | nil => simp at h
    | cons b t2 =>
      cases n with
      | zero => simp [List.getD]
      | succ n => simpa [List.getD] using ih t2 (by simpa using h) n

theorem zipWith_add_map_zero_right (s1 : α) (l1 l2 : List α) (h : l1.length = l2.length) :
    List.zipWith (fun x y => x + y) (l1.map (fun x => s1 * x)) (l2.map (fun x => 0 * x))
      = l1.map (fun x => s1 * x) := by
  induction l1 generalizing l2 with
  | nil => simp
  | cons a t1 ih =>
    cases l2 with
    | nil => simp at h
    | cons b t2 =>
      simp only [List.map_cons, List.zipWith_cons_cons]
      rw [ih t2 (by simpa using h)]
      simp

theorem zipWith_add_replicate_zero_right (l : List α) (n : ℕ) (h : l.length = n) :
    List.zipWith (fun x y => x + y) l (List.replicate n 0) = l := by
  induction l generalizing n with
  | nil => simp
  | cons a t ih =>
    cases n with
    | zero => simp at h
    | succ n =>
      simp only [List.replicate_succ, List.zipWith_cons_cons, add_zero]
      rw [ih n (by simpa using h)]

theorem zipWith_add_replicate_zero_left (l : List α) (n : ℕ) (h : n = l.length) :
    List.zipWith (fun x y => x + y) (List.replicate n 0) l = l := by
  induction l generalizing n with
  | nil => simp
  | cons a t ih =>
    cases n with
    | zero => simp at h
    | succ n => simp [List.replicate, ih n (by simpa using h)]

theorem getD_eq_getElem? {β : Type} (l : List β) (n : ℕ) (d : β) :
    l.getD n d = (l[n]?).getD d := by
  rw [getD_eq_get?, List.get?_eq_getElem?]

theorem flatten_getElem_uniform {β : Type} (L : ℕ) (ls : List (List β))
    (h : ∀ l ∈ ls, l.length = L) (i j : ℕ) (hj : j < L) (bi : List β)
    (hbi : ls[i]? = some bi) :
    ls.flatten[i * L + j]? = bi[j]? := by
  induction ls generalizing i with
  | nil => simp at hbi
  | cons a t ih =>
    have ha : a.length = L := h a (by simp)
    cases i with
    | zero =>
      simp only [List.getElem?_cons_zero, Option.some.injEq] at hbi
      subst hbi
      simp only [Nat.zero_mul, Nat.zero_add, List.flatten_cons]
      rw [List.getElem?_append, if_pos (by omega)]
    | succ i =>
      simp only [List.flatten_cons]
      rw [List.getElem?_append, if_neg (by push_neg; calc
        a.length = L := ha
        _ ≤ (i + 1) * L := Nat.le_mul_of_pos_left L (by omega)
        _ ≤ (i + 1) * L + j := by omega)]
      have harith : (i + 1) * L + j - a.length = i * L + j := by
        rw [ha]; rw [Nat.succ_mul]; omega
      rw [harith]
      exact ih (fun l hl => h l (by simp [hl])) i (by simpa using hbi)

theorem indicesOf_length (s : List ℕ) : (indicesOf s).length = s.prod := by
  induction s with
  | nil => rfl
  | cons d ds ih =>
    simp only [indicesOf, List.length_flatten, List.map_map, Function.comp_def,
      List.length_map]
    have : ((List.range d).map (fun _ => (indicesOf ds).length))
        = List.replicate d (indicesOf ds).length := by
      rw [List.eq_replicate_iff]
      refine ⟨by simp, ?_⟩
      intro b hb
      simp only [List.mem_map] at hb
      obtain ⟨x, -, hx⟩ := hb
      exact hx.symm
    rw [this, List.sum_replicate, smul_eq_mul, ih, List.prod_cons, Nat.mul_comm]

theorem flatIndex_lt (s idx : List ℕ) (h : validIdx idx s) : flatIndex s idx < s.prod := by
  induction s generalizing idx with
  | nil =>
    obtain ⟨hl, -⟩ := h
    cases idx with
    | nil => simp [flatIndex]
    | cons i is => simp at hl
  | cons d ds ih =>
    obtain ⟨hl, hb⟩ := h
    cases idx with
    | nil => simp at hl
    | cons i is =>
      have hi : i < d := hb (i, d) (by simp)
      have his : validIdx is ds := by
        refine ⟨by simpa using hl, fun p hp => hb p ?_⟩
        simp [List.zip_cons_cons, hp]
      have hrec := ih is his
      simp only [flatIndex, List.prod_cons]
      calc i * ds.prod + flatIndex ds is < i * ds.prod + ds.prod := by omega
        _ = (i + 1) * ds.prod := by ring
        _ ≤ d * ds.prod := Nat.mul_le_mul_right _ (by omega)

theorem indicesOf_getElem (s idx : List ℕ) (h : validIdx idx s) :
    (indicesOf s)[flatIndex s idx]? = some idx := by
  induction s generalizing idx with
  | nil =>
    obtain ⟨hl, -⟩ := h
    cases idx with
    | nil => rfl
    | cons i is => simp at hl
  | cons d ds ih =>
    obtain ⟨hl, hb⟩ := h
    cases idx with
    | nil => simp at hl
    | cons i is =>
      have hi : i < d := hb (i, d) (by simp)
      have his : validIdx is ds := by
        refine ⟨by simpa using hl, fun p hp => hb p ?_⟩
        simp [List.zip_cons_cons, hp]
      have huniform : ∀ l ∈ (List.range d).map
          (fun i => (indicesOf ds).map (fun is => i :: is)), l.length = (indicesOf ds).length := by
        intro l hx
        simp only [List.mem_map] at hx
        obtain ⟨x, -, hx⟩ := hx
        simp [← hx]
      have hjlt : flatIndex ds is < (indicesOf ds).length := by
        rw [indicesOf_length]
        exact flatIndex_lt ds is his
      have hblock : ((List.range d).map
          (fun i => (indicesOf ds).map (fun is => i :: is)))[i]?
            = some ((indicesOf ds).map (fun is => i :: is)) := by
        rw [List.getElem?_map, List.getElem?_range hi]
        rfl
      have key := flatten_getElem_uniform ((indicesOf ds).length)
        ((List.range d).map (fun i => (indicesOf ds).map (fun is => i :: is)))
        huniform i (flatIndex ds is) hjlt ((indicesOf ds).map (fun is => i :: is)) hblock
      simp only [indicesOf, flatIndex]
      rw [← indicesOf_length ds, key, List.getElem?_map, ih is his]
      rfl

theorem Tensor.pad_shape (t : Tensor α) (sh : List ℕ) : (t.pad sh).shape = sh := rfl

theorem Tensor.pad_length (t : Tensor α) (sh : List ℕ) :
    (t.pad sh).data.length = sh.prod := by
  simp [Tensor.pad, indicesOf_length]

theorem Tensor.pad_get (t : Tensor α) (sh idx : List ℕ) (h : validIdx idx sh) :
    (t.pad sh).get idx = if inBounds idx t.shape then t.get idx else 0 := by
  simp only [Tensor.get, Tensor.pad]
  rw [getD_eq_getElem?, List.getElem?_map, indicesOf_getElem sh idx h]
  rfl

theorem Tensor.get_scale (t : Tensor α) (c : α) (idx : List ℕ) :
    (t.scale c).get idx = c * t.get idx := by
  simp only [Tensor.get, Tensor.scale]
  exact map_mul_getD c t.data _

theorem Tensor.get_add (t1 t2 : Tensor α) (h : t1.shape = t2.shape)
    (hlen : t1.data.length = t2.data.length) (idx : List ℕ) :
    (t1.add t2).get idx = t1.get idx + t2.get idx := by
  simp only [Tensor.get, Tensor.add]
  rw [zipWith_add_getD t1.data t2.data hlen, h]

theorem contains_iff (l : List String) (k : String) : l.contains k = true ↔ k ∈ l := by
  simpa [List.contains] using List.elem_iff

theorem TMap.find_cons (a : String × Tensor α) (m : TMap α) (k : String) :
    TMap.find (a :: m) k = if a.1 = k then some a.2 else TMap.find m k := by
  by_cases h : a.1 = k
  · rw [if_pos h]
    simp only [TMap.find]
    rw [List.find?_cons_of_pos _ (by simp [h])]
    rfl
  · rw [if_neg h]
    simp only [TMap.find]
    rw [List.find?_cons_of_neg _ (by simp [h])]

theorem TMap.find_eq_none (m : TMap α) (k : String) :
    TMap.find m k = none ↔ k ∉ TMap.keys m := by
  induction m with
  | nil => simp [TMap.find, TMap.keys]
  | cons a t ih =>
    rw [TMap.find_cons]
    by_cases h : a.1 = k
    · simp [h, TMap.keys]
    · rw [if_neg h, ih]
      simp only [TMap.keys, List.map_cons, List.mem_cons, not_or]
      constructor
      · intro hn
        exact ⟨fun he => h he.symm, hn⟩
      · exact fun hn => hn.2

theorem TMap.find_isSome (m : TMap α) (k : String) :
    (TMap.find m k).isSome ↔ k ∈ TMap.keys m := by
  rw [← not_iff_not]
  simp [Option.not_isSome_iff_eq_none, TMap.find_eq_none]

theorem TMap.find_mem (m : TMap α) (k : String) (v : Tensor α)
    (h : TMap.find m k = some v) : (k, v) ∈ m := by
  simp only [TMap.find, Option.map_eq_some'] at h
  obtain ⟨p, hp, hv⟩ := h
  have hmem := List.mem_of_find?_eq_some hp
  have hpred : p.1 = k := by simpa using List.find?_some hp
  cases p with
  | mk a b =>
    simp only at hpred hv
    subst hpred
    subst hv
    exact hmem

theorem mem_allKeys (d1 d2 : TMap α) (k : String) :
    k ∈ allKeys d1 d2 ↔ k ∈ TMap.keys d1 ∨ k ∈ TMap.keys d2 := by
  simp only [allKeys, List.mem_append, List.mem_filter]
  constructor
  · rintro (h | ⟨h2, -⟩)
    · exact Or.inl h
    · exact Or.inr h2
  · rintro (h | h2)
    · exact Or.inl h
    · by_cases h1 : k ∈ TMap.keys d1
      · exact Or.inl h1
      · refine Or.inr ⟨h2, ?_⟩
        simp [contains_iff, h1]

theorem allKeys_nodup (d1 d2 : TMap α) (h1 : (TMap.keys d1).Nodup)
    (h2 : (TMap.keys d2).Nodup) : (allKeys d1 d2).Nodup := by
  refine List.Nodup.append h1 (h2.filter _) ?_
  intro a ha hafil
  have hf : d1.keys.contains a = false := by
    simpa using (List.mem_filter.mp hafil).2
  have ht : d1.keys.contains a = true := (contains_iff _ _).mpr ha
  rw [ht] at hf
  cases hf

theorem buildMerged_eq_some {f : String → Option (Tensor α)} :
    ∀ {l : List String} {m : TMap α}, buildMerged f l = some m →
      TMap.keys m = l ∧ ∀ p ∈ m, f p.1 = some p.2 := by
  intro l
  induction l with
  | nil =>
    intro m h
    simp only [buildMerged, Option.some.injEq] at h
    subst h
    simp [TMap.keys]
  | cons k ks ih =>
    intro m h
    simp only [buildMerged] at h
    cases hg : f k with
    | none => rw [hg] at h; cases h
    | some t =>
      rw [hg] at h
      cases hrec : buildMerged f ks with
      | none => rw [hrec] at h; cases h
      | some ms =>
        rw [hrec] at h
        simp only [Option.map_some', Option.some.injEq] at h
        subst h
        obtain ⟨hkeys, hvals⟩ := ih hrec
        refine ⟨by simp [TMap.keys] at hkeys ⊢; exact hkeys, ?_⟩
        intro p hp
        rcases List.mem_cons.mp hp with rfl | hp2
        · simpa using hg
        · exact hvals p hp2

theorem buildMerged_isSome {f : String → Option (Tensor α)} :
    ∀ (l : List String), (∀ k ∈ l, (f k).isSome) →
      ∃ m, buildMerged f l = some m := by
  intro l
  induction l with
  | nil => exact fun _ => ⟨[], rfl⟩
  | cons k ks ih =>
    intro h
    obtain ⟨t, hg⟩ := Option.isSome_iff_exists.mp (h k (by simp))
    obtain ⟨ms, hms⟩ := ih (fun x hx => h x (by simp [hx]))
    exact ⟨(k, t) :: ms, by simp [buildMerged, hg, hms]⟩

theorem buildMerged_find {f : String → Option (Tensor α)} :
    ∀ {l : List String} {m : TMap α}, l.Nodup → buildMerged f l = some m →
      (∀ k ∈ l, TMap.find m k = f k) ∧ ∀ k, k ∉ l → TMap.find m k = none := by
  intro l
  induction l with
  | nil =>
    intro m _ h
    simp only [buildMerged, Option.some.injEq] at h
    subst h
    exact ⟨by simp, fun k _ => rfl⟩
  | cons k0 ks ih =>
    intro m hnd h
    simp only [buildMerged] at h
    cases hg : f k0 with
    | none => rw [hg] at h; cases h
    | some t =>
      rw [hg] at h
      cases hrec : buildMerged f ks with
      | none => rw [hrec] at h; cases h
      | some ms =>
        rw [hrec] at h
        simp only [Option.map_some', Option.some.injEq] at h
        subst h
        obtain ⟨ihmem, ihnot⟩ := ih (List.Nodup.of_cons hnd) hrec
        constructor
        · intro k hk
          rcases List.mem_cons.mp hk with rfl | hk2
          · rw [TMap.find_cons]
            simp [hg]
          · rw [TMap.find_cons]
            have hne : k0 ≠ k := by
              rintro rfl
              exact (List.nodup_cons.mp hnd).1 hk2
            rw [if_neg hne]
            exact ihmem k hk2
        · intro k hk
          rw [TMap.find_cons, if_neg (by intro he; exact hk (he ▸ List.mem_cons_self k0 ks))]
          exact ihnot k (fun hk2 => hk (List.mem_cons_of_mem k0 hk2))

theorem buildMerged_congr {f g : String → Option (Tensor α)} :
    ∀ {l : List String}, (∀ k ∈ l, f k = g k) → buildMerged f l = buildMerged g l := by
  intro l
  induction l with
  | nil => intro _; rfl
  | cons k ks ih =>
    intro h
    simp only [buildMerged]
    rw [h k (by simp), ih (fun x hx => h x (by simp [hx]))]

/-- Claim C5: for every pair of maps and strengths, weighted-average merge
equals linear merge at the strengths normalized by `|strengthA| + |strengthB|`
whenever that sum is non-zero, and returns the empty map when both strengths
are zero (the division is never performed with a zero divisor). -/
theorem c5_weighted_average_normalizes (d1 d2 : TMap α) (s1 s2 : α) :
    (|s1| + |s2| ≠ 0 →
      weighted_average_method d1 d2 s1 s2
        = linear_merge_method d1 d2 (s1 / (|s1| + |s2|)) (s2 / (|s1| + |s2|)))
    ∧ (s1 = 0 → s2 = 0 → weighted_average_method d1 d2 s1 s2 = some []) := by
  constructor
  · intro h
    simp only [weighted_average_method]
    rw [if_neg h]
  · rintro rfl rfl
    simp [weighted_average_method]

theorem c5_weighted_average_normalizes_witness :
    weighted_average_method wmap1 wmap2 (1 : ℚ) 1
      = linear_merge_method wmap1 wmap2 (1 / (|(1 : ℚ)| + |(1 : ℚ)|)) (1 / (|(1 : ℚ)| + |(1 : ℚ)|))
    ∧ weighted_average_method wmap1 wmap2 (0 : ℚ) 0 = some [] :=
  ⟨(c5_weighted_average_normalizes wmap1 wmap2 1 1).1 (by norm_num),
   (c5_weighted_average_normalizes wmap1 wmap2 0 0).2 rfl rfl⟩

/-- Claim C6 is false as stated: for negative `k` the normalized strengths are
`-1/2`, not `1/2`.  At `k = -1` the weighted average negates the linear merge
with strengths `1/2`. -/
theorem c6_counterexample :
    weighted_average_method wmap1 wmap2 (-1 : ℚ) (-1)
      ≠ linear_merge_method wmap1 wmap2 (1 / 2) (1 / 2) := by
  norm_num [weighted_average_method, linear_merge_method, buildMerged, allKeys, mergeKey,
    TMap.find, TMap.keys, combineVals, Tensor.scale, Tensor.add, List.find?, wmap1, wmap2,
    key_a]

/-- Claim C6 (amended): for every pair of maps and every `k > 0`,
weighted-average merge with both strengths `k` equals linear merge with both
strengths `1/2`, independent of `k`.  (For `k < 0` the code instead uses
`-1/2` for both strengths.) -/
theorem c6_weighted_average_half (d1 d2 : TMap α) (k : α) (hk : 0 < k) :
    weighted_average_method d1 d2 k k = linear_merge_method d1 d2 (1 / 2) (1 / 2) := by
  have habs : |k| = k := abs_of_pos hk
  have htot : |k| + |k| = 2 * k := by rw [habs]; ring
  have hne : (2 : α) * k ≠ 0 := by positivity
  have hval : k / (2 * k) = 1 / 2 := by
    rw [div_eq_div_iff hne (by norm_num)]
    ring
  simp only [weighted_average_method, htot]
  rw [if_neg hne, hval]

theorem c6_weighted_average_half_witness :
    (0 : ℚ) < 3
    ∧ weighted_average_method wmap1 wmap2 (3 : ℚ) 3
        = linear_merge_method wmap1 wmap2 (1 / 2) (1 / 2) :=
  ⟨by norm_num, c6_weighted_average_half wmap1 wmap2 3 (by norm_num)⟩

/-- Claim C7 is false as stated: with `strengthA = 5`, `strengthB = 0`,
`mapA = {}` and `mapB = {b: [3]}`, linear merge returns `{b: [0]}` — the key
only in `mapB` is kept with a zero tensor — while `strengthA * mapA` is the
empty map. -/
theorem c7_counterexample :
    linear_merge_method ([] : TMap ℚ) [(key_b, Tensor.mk [1] [3])] 5 0
      = some [(key_b, Tensor.mk [1] [0])]
    ∧ ([(key_b, Tensor.mk [1] [0])] : TMap ℚ) ≠ [] := by
  constructor
  · norm_num [linear_merge_method, buildMerged, allKeys, mergeKey, TMap.find, TMap.keys,
      Tensor.scale, List.find?, key_b]
  · decide

/-- Claim C7 (amended): linear merge with `strengthB = 0` yields exactly
`strengthA * mapA` provided `mapB` introduces no new key and every shared key
has the same shape on both sides; keys only in `mapB` would otherwise be kept
as zero tensors, and shape-mismatched shared keys would be zero-padded. -/
theorem c7_strengthB_zero (d1 d2 : TMap α) (s1 : α)
    (hnd1 : (TMap.keys d1).Nodup) (hnd2 : (TMap.keys d2).Nodup)
    (hwf1 : ∀ p ∈ d1, p.2.wf) (hwf2 : ∀ p ∈ d2, p.2.wf)
    (hsub : ∀ p ∈ d2, p.1 ∈ TMap.keys d1)
    (hsh : ∀ p ∈ d1, ∀ q ∈ d2, p.1 = q.1 → p.2.shape = q.2.shape) :
    ∃ m, linear_merge_method d1 d2 s1 0 = some m ∧ TMap.keys m = TMap.keys d1 ∧
      ∀ k, TMap.find m k = (TMap.find d1 k).map (fun v => v.scale s1) := by
  have hall : allKeys d1 d2 = TMap.keys d1 := by
    unfold allKeys
    have : (TMap.keys d2).filter (fun k => !((TMap.keys d1).contains k)) = [] := by
      rw [List.filter_eq_nil]
      intro a ha
      obtain ⟨p, hp, hpa⟩ := List.mem_map.mp ha
      have := hsub p hp
      rw [hpa] at this
      simp [contains_iff, this]
    rw [this, List.append_nil]
  have hg : ∀ k ∈ TMap.keys d1,
      mergeKey d1 d2 s1 0 k = (TMap.find d1 k).map (fun v => v.scale s1) := by
    intro k hk
    obtain ⟨v1, hv1⟩ := Option.isSome_iff_exists.mp ((TMap.find_isSome d1 k).mpr hk)
    cases hv2 : TMap.find d2 k with
    | none => simp [mergeKey, hv1, hv2]
    | some v2 =>
      have hshape : v1.shape = v2.shape :=
        hsh (k, v1) (TMap.find_mem d1 k v1 hv1) (k, v2) (TMap.find_mem d2 k v2 hv2) rfl
      have hlen : v1.data.length = v2.data.length := by
        rw [hwf1 (k, v1) (TMap.find_mem d1 k v1 hv1), hwf2 (k, v2) (TMap.find_mem d2 k v2 hv2),
          hshape]
      simp only [mergeKey, hv1, hv2, combineVals, if_pos hshape, Option.map_some']
      congr 1
      show Tensor.add _ _ = _
      simp only [Tensor.add, Tensor.scale]
      refine congrArg (Tensor.mk v1.shape) ?_
      exact zipWith_add_map_zero_right s1 v1.data v2.data hlen
  have hsome : ∀ k ∈ allKeys d1 d2, (mergeKey d1 d2 s1 0 k).isSome := by
    intro k hk
    rw [hall] at hk
    rw [hg k hk]
    simp only [Option.isSome_map']
    exact (TMap.find_isSome d1 k).mpr hk
  obtain ⟨m, hm⟩ := buildMerged_isSome (f := mergeKey d1 d2 s1 0) (allKeys d1 d2) hsome
  refine ⟨m, hm, ?_, ?_⟩
  · obtain ⟨hkeys, -⟩ := buildMerged_eq_some hm
    rw [hkeys, hall]
  · obtain ⟨hfind, hnot⟩ := buildMerged_find (hall ▸ hnd1) hm
    intro k
    by_cases hk : k ∈ TMap.keys d1
    · rw [hfind k (hall ▸ hk), hg k hk]
    · rw [hnot k (by rw [hall]; exact hk), (TMap.find_eq_none d1 k).mpr hk]
      rfl

theorem c7_strengthB_zero_witness :
    ∃ m, linear_merge_method wmap1 wmap2 (2 : ℚ) 0 = some m
      ∧ TMap.keys m = TMap.keys wmap1
      ∧ ∀ k, TMap.find m k = (TMap.find wmap1 k).map (fun v => v.scale 2) :=
  c7_strengthB_zero wmap1 wmap2 2 (by decide) (by decide) (by decide) (by decide)
    (by decide) (by decide)

/-- Claim C4: an I/O or parse error while reading either source makes the
compatibility check return `is_compatible = false`, the `unknown` type tag,
and a report holding exactly the one error string; no exception escapes (the
embedding is a total function of the two load results). -/
theorem c4_load_error (r1 r2 : Except String (TMap α)) :
    (∀ e, r1 = Except.error e →
      check_lora_compatibility r1 r2
        = (false, CompatInfo.loadError e, LoraTypeTag.unknown))
    ∧ ∀ e m1, r1 = Except.ok m1 → r2 = Except.error e →
      check_lora_compatibility r1 r2
        = (false, CompatInfo.loadError e, LoraTypeTag.unknown) := by
  constructor
  · rintro e rfl
    rfl
  · rintro e m1 rfl rfl
    rfl

theorem c4_load_error_witness :
    check_lora_compatibility (Except.error msg_io) (Except.ok wmap1)
      = (false, CompatInfo.loadError msg_io, LoraTypeTag.unknown)
    ∧ check_lora_compatibility (Except.ok wmap1) (Except.error msg_io)
      = (false, CompatInfo.loadError msg_io, LoraTypeTag.unknown) :=
  ⟨(c4_load_error _ _).1 msg_io rfl, (c4_load_error _ _).2 msg_io wmap1 rfl rfl⟩

/-- Claim C8: the key-pattern classifier depends only on key-set membership
(any two enumerations of the same set classify alike) and follows the fixed
precedence `.lora_down.weight` > `.lora_A`/`.lora_B` > `q_proj`/`k_proj`/
`v_proj` > `.weight` > unknown. -/
theorem c8_classifier (keys1 keys2 : List String)
    (hmem : ∀ k, k ∈ keys1 ↔ k ∈ keys2) :
    detect_lora_type keys1 = detect_lora_type keys2
    ∧ (keys1.any (fun k => strContains k sfx_down) = true →
        detect_lora_type keys1 = LoraTypeTag.standard_lora)
    ∧ (keys1.any (fun k => strContains k sfx_down) = false →
        keys1.any (fun k => strContains k sfx_A || strContains k sfx_B) = true →
        detect_lora_type keys1 = LoraTypeTag.peft_lora)
    ∧ (keys1.any (fun k => strContains k sfx_down) = false →
        keys1.any (fun k => strContains k sfx_A || strContains k sfx_B) = false →
        keys1.any (fun k => strContains k pat_q || strContains k pat_k || strContains k pat_v)
          = true →
        detect_lora_type keys1 = LoraTypeTag.transformer_lora)
    ∧ (keys1.any (fun k => strContains k sfx_down) = false →
        keys1.any (fun k => strContains k sfx_A || strContains k sfx_B) = false →
        keys1.any (fun k => strContains k pat_q || strContains k pat_k || strContains k pat_v)
          = false →
        keys1.any (fun k => strContains k pat_weight) = true →
        detect_lora_type keys1 = LoraTypeTag.generic_weights)
    ∧ (keys1.any (fun k => strContains k sfx_down) = false →
        keys1.any (fun k => strContains k sfx_A || strContains k sfx_B) = false →
        keys1.any (fun k => strContains k pat_q || strContains k pat_k || strContains k pat_v)
          = false →
        keys1.any (fun k => strContains k pat_weight) = false →
        detect_lora_type keys1 = LoraTypeTag.unknown) := by
  have hany : ∀ p : String → Bool, keys1.any p = keys2.any p := by
    intro p
    cases h : keys2.any p with
    | false =>
      rw [List.any_eq_false] at h ⊢
      exact fun x hx => h x ((hmem x).mp hx)
    | true =>
      rw [List.any_eq_true] at h ⊢
      obtain ⟨x, hx, hpx⟩ := h
      exact ⟨x, (hmem x).mpr hx, hpx⟩
  refine ⟨?_, ?_, ?_, ?_, ?_, ?_⟩
  · simp only [detect_lora_type, hany]
  · intro h1
    simp [detect_lora_type, h1]
  · intro h1 h2
    simp [detect_lora_type, h1, h2]
  · intro h1 h2 h3
    simp [detect_lora_type, h1, h2, h3]
  · intro h1 h2 h3 h4
    simp [detect_lora_type, h1, h2, h3, h4]
  · intro h1 h2 h3 h4
    simp [detect_lora_type, h1, h2, h3, h4]

theorem c8_classifier_witness :
    detect_lora_type c8keys1 = LoraTypeTag.standard_lora
    ∧ detect_lora_type c8keys2 = detect_lora_type c8keys1 := by
  constructor
  · exact (c8_classifier c8keys1 c8keys1 (fun k => Iff.rfl)).2.1 (by decide)
  · exact (c8_classifier c8keys2 c8keys1 (by
      intro k
      simp only [c8keys1, c8keys2, List.mem_cons, List.not_mem_nil, or_false]
      tauto)).1

/-- Claim C1 fails on the code: the claim is right about the merged shapes,
but because *both* factors are multiplied by `sign(s) * sqrt(|s|)` the sign of
a negative strength cancels in the product.  On two rank-1 single-module
LoRAs with all matrices `[[1]]`, no alpha, strengths `s1 = -1`, `s2 = 1`
(where the modelled square root is exact: `sqrt 1 = 1`), the code produces
down `[[-1], [1]]` and up `[[-1, 1]]` whose product is `[[2]]`
(`= |s1|*B1@A1 + |s2|*B2@A2`), while the claim demands
`s1*(B1@A1) + s2*(B2@A2) = [[0]]`. -/
theorem c1_sign_cancellation_eval :
    concatenation_merge_method qSqrt c1map1 c1map2 (-1 : ℚ) 1 = some c1merged
    ∧ (Tensor.mk [2, 1] [-1, 1] : Tensor ℚ).shape = [1 + 1, 1]
    ∧ (Tensor.mk [1, 2] [-1, 1] : Tensor ℚ).shape = [1, 1 + 1]
    ∧ matMul (Tensor.mk [1, 2] [-1, 1]) (Tensor.mk [2, 1] [-1, 1])
        = ((matMul (Tensor.mk [1, 1] [1]) (Tensor.mk [1, 1] [1])).scale |(-1 : ℚ)|).add
            ((matMul (Tensor.mk [1, 1] [1]) (Tensor.mk [1, 1] [1])).scale |(1 : ℚ)|)
    ∧ matMul (Tensor.mk [1, 2] [-1, 1]) (Tensor.mk [2, 1] [-1, 1])
        ≠ ((matMul (Tensor.mk [1, 1] [1]) (Tensor.mk [1, 1] [1])).scale (-1 : ℚ)).add
            ((matMul (Tensor.mk [1, 1] [1]) (Tensor.mk [1, 1] [1])).scale 1)
    ∧ qSqrt |(-1 : ℚ)| * qSqrt |(-1 : ℚ)| = |(-1 : ℚ)|
    ∧ qSqrt |(1 : ℚ)| * qSqrt |(1 : ℚ)| = |(1 : ℚ)| := by
  have hr1 : List.range 1 = [0] := by decide
  have hr2 : List.range 2 = [0, 1] := by decide
  have hBA : matMul (Tensor.mk [1, 1] [1]) (Tensor.mk [1, 1] [1])
      = (Tensor.mk [1, 1] [1] : Tensor ℚ) := by
    norm_num [matMul, Tensor.get, flatIndex, hr1, List.getD]
  refine ⟨?_, rfl, rfl, ?_, ?_, ?_, ?_⟩
  · have hfd1 : TMap.find c1map1 key_xd = some (Tensor.mk [1, 1] [1]) := by decide
    have hfu1 : TMap.find c1map1 key_xu = some (Tensor.mk [1, 1] [1]) := by decide
    have hfa1 : TMap.find c1map1 key_xa = none := by decide
    have hfd2 : TMap.find c1map2 key_xd = some (Tensor.mk [1, 1] [1]) := by decide
    have hfu2 : TMap.find c1map2 key_xu = some (Tensor.mk [1, 1] [1]) := by decide
    have hfa2 : TMap.find c1map2 key_xa = none := by decide
    have hq : qSqrt 1 = 1 := by norm_num [qSqrt]
    have h1 : processSource qSqrt c1map1 (-1 : ℚ) key_xd key_xu key_xa emptyAccum
        = some (Accum.mk [Tensor.mk [1, 1] [-1]] [Tensor.mk [1, 1] [-1]] 1
            (some (1, 1)) false) := by
      simp only [processSource, hfd1, hfu1, hfa1, processAlpha, finishSource, emptyAccum]
      norm_num [Tensor.scale, hq]
    have h2 : processSource qSqrt c1map2 (1 : ℚ) key_xd key_xu key_xa
        (Accum.mk [Tensor.mk [1, 1] [-1]] [Tensor.mk [1, 1] [-1]] 1 (some (1, 1)) false)
        = some (Accum.mk [Tensor.mk [1, 1] [-1], Tensor.mk [1, 1] [1]]
            [Tensor.mk [1, 1] [-1], Tensor.mk [1, 1] [1]] 2 (some (1, 1)) false) := by
      simp only [processSource, hfd2, hfu2, hfa2, processAlpha, finishSource]
      norm_num [Tensor.scale, hq]
    have hpfx : collectPrefixes c1map1 c1map2 = ["x"] := by decide
    have hsort : sortStrings ["x"] = ["x"] := by decide
    have hkd : ("x" ++ sfx_down) = key_xd := by decide
    have hku : ("x" ++ sfx_up) = key_xu := by decide
    have hka : ("x" ++ sfx_alpha) = key_xa := by decide
    simp only [concatenation_merge_method, hpfx, hsort, List.isEmpty_cons, Bool.false_eq_true,
      if_false]
    have hpp : processPrefixes qSqrt c1map1 c1map2 (-1 : ℚ) 1 ["x"] []
        = some [(key_xd, Tensor.mk [2, 1] [-1, 1]), (key_xu, Tensor.mk [1, 2] [-1, 1])] := by
      simp only [processPrefixes, processPrefix, mergePrefixPattern, hkd, hku, hka, h1, h2,
        Option.bind_eq_bind, Option.some_bind]
      decide
    simp only [hpp, Option.bind_eq_bind, Option.some_bind]
    decide
  · rw [hBA]
    norm_num [matMul, Tensor.get, flatIndex, hr1, hr2, List.getD, Tensor.scale, Tensor.add]
  · rw [hBA]
    intro h
    have hdata := congrArg Tensor.data h
    norm_num [matMul, Tensor.get, flatIndex, hr1, hr2, List.getD, Tensor.scale,
      Tensor.add] at hdata
  · norm_num [qSqrt]
  · norm_num [qSqrt]

/-- Claim C3 fails on the code in two ways.  First, the fallback is the
*original* linear merge, which does not zero-pad: with a structural failure
(malformed two-element alpha) and a common key `y` of shapes `[2]` vs `[3]`,
the orchestrator's fallback raises while `linear_merge_method` succeeds by
padding, so the results differ.  Second, the unknown-method fallback path
prints no warning (the warning flag is `false`). -/
theorem c3_counterexample :
    (CombineLoras.combine qSqrt mname_concat c3map1 c3map2 (1 : ℚ) 1).1
      ≠ linear_merge_method c3map1 c3map2 (1 : ℚ) 1
    ∧ (CombineLoras.combine qSqrt mname_concat c3map1 c3map2 (1 : ℚ) 1).2 = true
    ∧ (CombineLoras.combine qSqrt mname_bogus c3map1 c3map2 (1 : ℚ) 1).2 = false := by
  refine ⟨?_, by decide, by decide⟩
  have hnone : (CombineLoras.combine qSqrt mname_concat c3map1 c3map2 (1 : ℚ) 1).1 = none := by
    decide
  have hsome : (linear_merge_method c3map1 c3map2 (1 : ℚ) 1).isSome = true := by decide
  intro h
  rw [hnone] at h
  rw [← h] at hsome
  cases hsome

/-- Claim C3 (amended): when the selected strategy raises, the orchestrator
surfaces a warning and falls back to the original linear implementation; when
the method name is unknown it falls back with no warning.  Whenever every
common key has the same shape in both maps the fallback coincides with
`linear_merge_method` (4.3) — the zero-padding path is exactly where the two
implementations differ. -/
theorem c3_fallback_behavior (sqrtFn : α → α) (name : String) (d1 d2 : TMap α) (s1 s2 : α)
    (hsh : ∀ p ∈ d1, ∀ q ∈ d2, p.1 = q.1 → p.2.shape = q.2.shape) :
    CombineLoras.fallback_linear_merge d1 d2 s1 s2 = linear_merge_method d1 d2 s1 s2
    ∧ (name ∈ mergeMethodNames → runMergeMethod sqrtFn name d1 d2 s1 s2 = none →
        CombineLoras.combine sqrtFn name d1 d2 s1 s2 = (linear_merge_method d1 d2 s1 s2, true))
    ∧ (name ∉ mergeMethodNames →
        CombineLoras.combine sqrtFn name d1 d2 s1 s2
          = (linear_merge_method d1 d2 s1 s2, false)) := by
  have hmain : CombineLoras.fallback_linear_merge d1 d2 s1 s2
      = linear_merge_method d1 d2 s1 s2 := by
    refine buildMerged_congr ?_
    intro k _
    cases hv1 : TMap.find d1 k with
    | none =>
      cases hv2 : TMap.find d2 k with
      | none => simp [fallbackKey, mergeKey, hv1, hv2]
      | some v2 =>
        simp only [fallbackKey, mergeKey, hv1, hv2, Option.some.injEq]
        show Tensor.add _ _ = _
        simp only [Tensor.add, Tensor.scale, Tensor.zerosLike]
        refine congrArg₂ Tensor.mk rfl ?_
        rw [List.map_replicate, mul_zero]
        exact zipWith_add_replicate_zero_left _ _ (by simp)
    | some v1 =>
      cases hv2 : TMap.find d2 k with
      | none =>
        simp only [fallbackKey, mergeKey, hv1, hv2, Option.some.injEq]
        show Tensor.add _ _ = _
        simp only [Tensor.add, Tensor.scale, Tensor.zerosLike]
        refine congrArg₂ Tensor.mk rfl ?_
        rw [List.map_replicate, mul_zero]
        exact zipWith_add_replicate_zero_right _ _ (by simp)
      | some v2 =>
        have hshape : v1.shape = v2.shape :=
          hsh (k, v1) (TMap.find_mem d1 k v1 hv1) (k, v2) (TMap.find_mem d2 k v2 hv2) rfl
        simp only [fallbackKey, mergeKey, hv1, hv2, combineVals, Tensor.addStrict]
        have hs : (v1.scale s1).shape = (v2.scale s2).shape := hshape
        rw [if_pos hs, if_pos hshape]
  refine ⟨hmain, ?_, ?_⟩
  · intro hmem hrun
    simp only [CombineLoras.combine, if_pos hmem, hrun, hmain]
  · intro hmem
    simp only [CombineLoras.combine, if_neg hmem, hmain]

theorem c3_fallback_behavior_witness :
    CombineLoras.combine qSqrt mname_concat c3map1 ([] : TMap ℚ) 1 1
      = (linear_merge_method c3map1 ([] : TMap ℚ) 1 1, true)
    ∧ CombineLoras.combine qSqrt mname_bogus c3map1 ([] : TMap ℚ) 1 1
      = (linear_merge_method c3map1 ([] : TMap ℚ) 1 1, false) :=
  ⟨(c3_fallback_behavior qSqrt mname_concat c3map1 [] 1 1
      (by intro p hp q hq; cases hq)).2.1 (by decide) (by decide),
   (c3_fallback_behavior qSqrt mname_bogus c3map1 [] 1 1
      (by intro p hp q hq; cases hq)).2.2 (by decide)⟩

/-- Claim C9: on key-disjoint sources the checker always reports incompatible
with the no-common-keys issue, the type-mismatch check runs independently (so
both issues can appear together), and the shape-comparison step is skipped —
the issues list contains exactly the step-1/2 issues — whenever either early
check already failed. -/
theorem c9_disjoint_and_skip (m1 m2 : TMap α) :
    ((∀ k ∈ TMap.keys m1, k ∉ TMap.keys m2) →
      (check_lora_compatibility (Except.ok m1) (Except.ok m2)).1 = false
      ∧ (check_lora_compatibility (Except.ok m1) (Except.ok m2)).2.2
          = detect_lora_type (TMap.keys m1).dedup
      ∧ CompatInfo.issuesOf (check_lora_compatibility (Except.ok m1) (Except.ok m2)).2.1
          = some
            ((if detect_lora_type (TMap.keys m1).dedup
                  ≠ detect_lora_type (TMap.keys m2).dedup
              then [Issue.typeMismatch (detect_lora_type (TMap.keys m1).dedup)
                      (detect_lora_type (TMap.keys m2).dedup)]
              else [])
              ++ [Issue.noCommonKeys])
      ∧ CompatInfo.compatOf (check_lora_compatibility (Except.ok m1) (Except.ok m2)).2.1
          = some false)
    ∧ (detect_lora_type (TMap.keys m1).dedup ≠ detect_lora_type (TMap.keys m2).dedup →
      (check_lora_compatibility (Except.ok m1) (Except.ok m2)).1 = false
      ∧ CompatInfo.issuesOf (check_lora_compatibility (Except.ok m1) (Except.ok m2)).2.1
          = some
            ([Issue.typeMismatch (detect_lora_type (TMap.keys m1).dedup)
                (detect_lora_type (TMap.keys m2).dedup)]
              ++ (if ∀ k ∈ TMap.keys m1, k ∉ TMap.keys m2
                  then [Issue.noCommonKeys] else []))
      ∧ CompatInfo.compatOf (check_lora_compatibility (Except.ok m1) (Except.ok m2)).2.1
          = some false) := by
  constructor
  · intro hdisj
    have hnex : ¬∃ x ∈ TMap.keys m1, x ∈ TMap.keys m2 := by
      rintro ⟨x, hx1, hx2⟩
      exact hdisj x hx1 hx2
    by_cases ht : detect_lora_type (TMap.keys m1).dedup
        = detect_lora_type (TMap.keys m2).dedup <;>
      refine ⟨?_, ?_, ?_, ?_⟩ <;>
        (simp [check_lora_compatibility, hdisj, hnex, ht, CompatInfo.issuesOf,
          CompatInfo.compatOf]
         try exact hdisj)
  · intro ht
    by_cases hd : ∀ k ∈ TMap.keys m1, k ∉ TMap.keys m2
    · have hnex : ¬∃ x ∈ TMap.keys m1, x ∈ TMap.keys m2 := by
        rintro ⟨x, hx1, hx2⟩
        exact hd x hx1 hx2
      refine ⟨?_, ?_, ?_⟩ <;>
        (simp [check_lora_compatibility, hd, hnex, ht, CompatInfo.issuesOf,
          CompatInfo.compatOf]
         try exact hd)
    · have hex : ∃ x ∈ TMap.keys m1, x ∈ TMap.keys m2 := by
        push_neg at hd
        exact hd
      refine ⟨?_, ?_, ?_⟩ <;>
        simp [check_lora_compatibility, hd, hex, ht, CompatInfo.issuesOf,
          CompatInfo.compatOf]

theorem c9_disjoint_and_skip_witness :
    ((check_lora_compatibility (Except.ok c9map1) (Except.ok c9map2)).1 = false
      ∧ (check_lora_compatibility (Except.ok c9map1) (Except.ok c9map2)).2.2
          = detect_lora_type (TMap.keys c9map1).dedup
      ∧ CompatInfo.issuesOf (check_lora_compatibility (Except.ok c9map1) (Except.ok c9map2)).2.1
          = some
            ((if detect_lora_type (TMap.keys c9map1).dedup
                  ≠ detect_lora_type (TMap.keys c9map2).dedup
              then [Issue.typeMismatch (detect_lora_type (TMap.keys c9map1).dedup)
                      (detect_lora_type (TMap.keys c9map2).dedup)]
              else [])
              ++ [Issue.noCommonKeys])
      ∧ CompatInfo.compatOf (check_lora_compatibility (Except.ok c9map1) (Except.ok c9map2)).2.1
          = some false)
    ∧ ((check_lora_compatibility (Except.ok c9map3) (Except.ok c9map2)).1 = false
      ∧ CompatInfo.issuesOf (check_lora_compatibility (Except.ok c9map3) (Except.ok c9map2)).2.1
          = some
            ([Issue.typeMismatch (detect_lora_type (TMap.keys c9map3).dedup)
                (detect_lora_type (TMap.keys c9map2).dedup)]
              ++ (if ∀ k ∈ TMap.keys c9map3, k ∉ TMap.keys c9map2
                  then [Issue.noCommonKeys] else []))
      ∧ CompatInfo.compatOf (check_lora_compatibility (Except.ok c9map3) (Except.ok c9map2)).2.1
          = some false) :=
  ⟨(c9_disjoint_and_skip c9map1 c9map2).1 (by decide),
   (c9_disjoint_and_skip c9map3 c9map2).2 (by decide)⟩

theorem validIdx_inBounds (idx s : List ℕ) (h : validIdx idx s) : inBounds idx s = true := by
  obtain ⟨hl, hb⟩ := h
  simp only [inBounds, Bool.and_eq_true, beq_iff_eq, List.all_eq_true]
  exact ⟨hl, fun p hp => decide_eq_true (hb p hp)⟩

theorem combineVals_isSome (s1 s2 : α) (v1 v2 : Tensor α)
    (h : v1.shape.length = v2.shape.length) : (combineVals s1 s2 v1 v2).isSome := by
  unfold combineVals
  by_cases he : v1.shape = v2.shape
  · rw [if_pos he]; rfl
  · rw [if_neg he, if_pos h]; rfl

theorem combineVals_pad (s1 s2 : α) (v1 v2 : Tensor α) (hne : v1.shape ≠ v2.shape)
    (hlen : v1.shape.length = v2.shape.length) (hwf1 : v1.wf) (hwf2 : v2.wf) :
    ∃ r, combineVals s1 s2 v1 v2 = some r
      ∧ r.shape = List.zipWith max v1.shape v2.shape
      ∧ ∀ idx, validIdx idx (List.zipWith max v1.shape v2.shape) →
          r.get idx
            = s1 * (if inBounds idx v1.shape then v1.get idx else 0)
              + s2 * (if inBounds idx v2.shape then v2.get idx else 0) := by
  set M := List.zipWith max v1.shape v2.shape with hM
  unfold combineVals
  rw [if_neg hne, if_pos hlen, ← hM]
  refine ⟨_, rfl, ?_, ?_⟩
  · show ((if v1.shape = M then v1 else v1.pad M).scale s1).shape = M
    by_cases h1 : v1.shape = M
    · rw [if_pos h1]
      exact h1
    · rw [if_neg h1]
      rfl
  · intro idx hidx
    set w1 := if v1.shape = M then v1 else v1.pad M with hw1
    set w2 := if v2.shape = M then v2 else v2.pad M with hw2
    have hsh1 : w1.shape = M := by
      rw [hw1]; by_cases h1 : v1.shape = M
      · rw [if_pos h1]; exact h1
      · rw [if_neg h1]; rfl
    have hsh2 : w2.shape = M := by
      rw [hw2]; by_cases h2 : v2.shape = M
      · rw [if_pos h2]; exact h2
      · rw [if_neg h2]; rfl
    have hlen1 : w1.data.length = M.prod := by
      rw [hw1]; by_cases h1 : v1.shape = M
      · rw [if_pos h1, hwf1, h1]
      · rw [if_neg h1]; exact Tensor.pad_length v1 M
    have hlen2 : w2.data.length = M.prod := by
      rw [hw2]; by_cases h2 : v2.shape = M
      · rw [if_pos h2, hwf2, h2]
      · rw [if_neg h2]; exact Tensor.pad_length v2 M
    have hget1 : w1.get idx = if inBounds idx v1.shape then v1.get idx else 0 := by
      rw [hw1]; by_cases h1 : v1.shape = M
      · rw [if_pos h1, if_pos (by rw [h1]; exact validIdx_inBounds idx M hidx)]
      · rw [if_neg h1]
        exact Tensor.pad_get v1 M idx hidx
    have hget2 : w2.get idx = if inBounds idx v2.shape then v2.get idx else 0 := by
      rw [hw2]; by_cases h2 : v2.shape = M
      · rw [if_pos h2, if_pos (by rw [h2]; exact validIdx_inBounds idx M hidx)]
      · rw [if_neg h2]
        exact Tensor.pad_get v2 M idx hidx
    rw [Tensor.get_add _ _ (by show w1.shape = w2.shape; rw [hsh1, hsh2])
        (by simp only [Tensor.scale, List.length_map]; rw [hlen1, hlen2]),
      Tensor.get_scale, Tensor.get_scale, hget1, hget2]

/-- Claim C2: under the claim's implicit precondition that shared keys carry
tensors of equal rank (the code raises otherwise), linear merge is defined
exactly on the union of the key sets; an equal-shape shared key gets
`strengthA * valueA + strengthB * valueB`; a shape-mismatched shared key of
equal rank gets the elementwise-maximum shape with, pointwise, the
origin-aligned original values zero-extended before the same combination; a
one-sided key gets its value scaled by its side's strength. -/
theorem c2_linear_merge_characterization (d1 d2 : TMap α) (s1 s2 : α)
    (hnd1 : (TMap.keys d1).Nodup) (hnd2 : (TMap.keys d2).Nodup)
    (hwf1 : ∀ p ∈ d1, p.2.wf) (hwf2 : ∀ p ∈ d2, p.2.wf)
    (hrank : ∀ p ∈ d1, ∀ q ∈ d2, p.1 = q.1 → p.2.shape.length = q.2.shape.length) :
    ∃ m, linear_merge_method d1 d2 s1 s2 = some m
      ∧ (∀ k, k ∈ TMap.keys m ↔ k ∈ TMap.keys d1 ∨ k ∈ TMap.keys d2)
      ∧ (∀ k v1 v2, TMap.find d1 k = some v1 → TMap.find d2 k = some v2 →
          v1.shape = v2.shape →
          TMap.find m k = some ((v1.scale s1).add (v2.scale s2)))
      ∧ (∀ k v1 v2, TMap.find d1 k = some v1 → TMap.find d2 k = some v2 →
          v1.shape ≠ v2.shape →
          ∃ r, TMap.find m k = some r
            ∧ r.shape = List.zipWith max v1.shape v2.shape
            ∧ ∀ idx, validIdx idx (List.zipWith max v1.shape v2.shape) →
                r.get idx
                  = s1 * (if inBounds idx v1.shape then v1.get idx else 0)
                    + s2 * (if inBounds idx v2.shape then v2.get idx else 0))
      ∧ (∀ k v1, TMap.find d1 k = some v1 → TMap.find d2 k = none →
          TMap.find m k = some (v1.scale s1))
      ∧ (∀ k v2, TMap.find d1 k = none → TMap.find d2 k = some v2 →
          TMap.find m k = some (v2.scale s2)) := by
  have hrankk : ∀ k v1 v2, TMap.find d1 k = some v1 → TMap.find d2 k = some v2 →
      v1.shape.length = v2.shape.length := by
    intro k v1 v2 h1 h2
    exact hrank (k, v1) (TMap.find_mem d1 k v1 h1) (k, v2) (TMap.find_mem d2 k v2 h2) rfl
  have hsome : ∀ k ∈ allKeys d1 d2, (mergeKey d1 d2 s1 s2 k).isSome := by
    intro k hk
    rcases (mem_allKeys d1 d2 k).mp hk with hk1 | hk2
    · obtain ⟨v1, hv1⟩ := Option.isSome_iff_exists.mp ((TMap.find_isSome d1 k).mpr hk1)
      cases hv2 : TMap.find d2 k with
      | none => simp [mergeKey, hv1, hv2]
      | some v2 =>
        simp only [mergeKey, hv1, hv2]
        exact combineVals_isSome s1 s2 v1 v2 (hrankk k v1 v2 hv1 hv2)
    · obtain ⟨v2, hv2⟩ := Option.isSome_iff_exists.mp ((TMap.find_isSome d2 k).mpr hk2)
      cases hv1 : TMap.find d1 k with
      | none => simp [mergeKey, hv1, hv2]
      | some v1 =>
        simp only [mergeKey, hv1, hv2]
        exact combineVals_isSome s1 s2 v1 v2 (hrankk k v1 v2 hv1 hv2)
  obtain ⟨m, hm⟩ := buildMerged_isSome (f := mergeKey d1 d2 s1 s2) (allKeys d1 d2) hsome
  obtain ⟨hkeys, -⟩ := buildMerged_eq_some hm
  obtain ⟨hfind, -⟩ := buildMerged_find (allKeys_nodup d1 d2 hnd1 hnd2) hm
  have hmem1 : ∀ k (v1 : Tensor α), TMap.find d1 k = some v1 → k ∈ allKeys d1 d2 := by
    intro k v1 hv1
    exact (mem_allKeys d1 d2 k).mpr
      (Or.inl ((TMap.find_isSome d1 k).mp (by rw [hv1]; rfl)))
  have hmem2 : ∀ k (v2 : Tensor α), TMap.find d2 k = some v2 → k ∈ allKeys d1 d2 := by
    intro k v2 hv2
    exact (mem_allKeys d1 d2 k).mpr
      (Or.inr ((TMap.find_isSome d2 k).mp (by rw [hv2]; rfl)))
  refine ⟨m, hm, ?_, ?_, ?_, ?_, ?_⟩
  · intro k
    rw [hkeys]
    exact mem_allKeys d1 d2 k
  · intro k v1 v2 hv1 hv2 hsh
    rw [hfind k (hmem1 k v1 hv1)]
    simp only [mergeKey, hv1, hv2, combineVals, if_pos hsh]
  · intro k v1 v2 hv1 hv2 hsh
    obtain ⟨r, hr, hrs, hrg⟩ := combineVals_pad s1 s2 v1 v2 hsh (hrankk k v1 v2 hv1 hv2)
      (hwf1 (k, v1) (TMap.find_mem d1 k v1 hv1)) (hwf2 (k, v2) (TMap.find_mem d2 k v2 hv2))
    refine ⟨r, ?_, hrs, hrg⟩
    rw [hfind k (hmem1 k v1 hv1)]
    simp only [mergeKey, hv1, hv2]
    exact hr
  · intro k v1 hv1 hv2
    rw [hfind k (hmem1 k v1 hv1)]
    simp [mergeKey, hv1, hv2]
  · intro k v2 hv1 hv2
    rw [hfind k (hmem2 k v2 hv2)]
    simp [mergeKey, hv1, hv2]

theorem c2_linear_merge_characterization_witness :
    ∃ m, linear_merge_method c2map1 c2map2 (2 : ℚ) 3 = some m
      ∧ (∀ k, k ∈ TMap.keys m ↔ k ∈ TMap.keys c2map1 ∨ k ∈ TMap.keys c2map2)
      ∧ (∀ k v1 v2, TMap.find c2map1 k = some v1 → TMap.find c2map2 k = some v2 →
          v1.shape = v2.shape →
          TMap.find m k = some ((v1.scale 2).add (v2.scale 3)))
      ∧ (∀ k v1 v2, TMap.find c2map1 k = some v1 → TMap.find c2map2 k = some v2 →
          v1.shape ≠ v2.shape →
          ∃ r, TMap.find m k = some r
            ∧ r.shape = List.zipWith max v1.shape v2.shape
            ∧ ∀ idx, validIdx idx (List.zipWith max v1.shape v2.shape) →
                r.get idx
                  = 2 * (if inBounds idx v1.shape then v1.get idx else 0)
                    + 3 * (if inBounds idx v2.shape then v2.get idx else 0))
      ∧ (∀ k v1, TMap.find c2map1 k = some v1 → TMap.find c2map2 k = none →
          TMap.find m k = some (v1.scale 2))
      ∧ (∀ k v2, TMap.find c2map1 k = none → TMap.find c2map2 k = some v2 →
          TMap.find m k = some (v2.scale 3)) :=
  c2_linear_merge_characterization c2map1 c2map2 2 3 (by decide) (by decide) (by decide)
    (by decide) (by decide)

theorem TMap.keys_insert (m : TMap α) (k : String) (v : Tensor α) (k' : String) :
    k' ∈ TMap.keys (m.insert k v) ↔ k' ∈ TMap.keys m ∨ k' = k := by
  simp only [TMap.insert, TMap.keys, List.map_append, List.mem_append, List.map_cons,
    List.map_nil, List.mem_singleton, List.mem_map]
  constructor
  · rintro (⟨p, hp, hpk⟩ | hk)
    · exact Or.inl ⟨p, (List.mem_filter.mp hp).1, hpk⟩
    · exact Or.inr hk
  · rintro (⟨p, hp, hpk⟩ | hk)
    · by_cases hpk2 : p.1 = k
      · exact Or.inr (hpk ▸ hpk2)
      · exact Or.inl ⟨p, List.mem_filter.mpr ⟨hp, by simp [hpk2]⟩, hpk⟩
    · exact Or.inr hk

theorem insertEntries_keys_sub :
    ∀ (es : List (String × Tensor α)) (m : TMap α) (k' : String),
      k' ∈ TMap.keys (insertEntries m es) → k' ∈ TMap.keys m ∨ ∃ p ∈ es, p.1 = k' := by
  intro es
  induction es with
  | nil => exact fun m k' h => Or.inl h
  | cons e es ih =>
    intro m k' h
    rcases ih (m.insert e.1 e.2) k' h with h2 | ⟨p, hp, hpk⟩
    · rcases (TMap.keys_insert m e.1 e.2 k').mp h2 with h3 | h3
      · exact Or.inl h3
      · exact Or.inr ⟨e, by simp, h3.symm⟩
    · exact Or.inr ⟨p, by simp [hp], hpk⟩

theorem finishSource_has_alpha (sqrtFn : α → α) (w scaling : α) (acc : Accum α) (ri : ℕ)
    (A B : Tensor α) (acc' : Accum α)
    (h : finishSource sqrtFn w scaling acc ri A B = some acc') :
    acc'.has_alpha = acc.has_alpha := by
  simp only [finishSource] at h
  split at h
  · cases h; rfl
  · cases h; rfl

theorem processAlpha_has_alpha (sqrtFn : α → α) (d : TMap α) (w : α) (ak : String)
    (acc : Accum α) (ri : ℕ) (A B : Tensor α) (acc' : Accum α)
    (h : processAlpha sqrtFn d w ak acc ri A B = some acc') :
    acc'.has_alpha = acc.has_alpha ∨ ak ∈ TMap.keys d := by
  unfold processAlpha at h
  split at h
  case h_1 t heq =>
    exact Or.inr ((TMap.find_isSome d ak).mp (by rw [heq]; rfl))
  case h_2 heq =>
    exact Or.inl (finishSource_has_alpha sqrtFn w 1 acc ri A B acc' h)

theorem processSource_inv (sqrtFn : α → α) (d : TMap α) (w : α) (dk uk ak : String)
    (acc acc' : Accum α) (h : processSource sqrtFn d w dk uk ak acc = some acc') :
    (acc'.A_list = acc.A_list ∨ (dk ∈ TMap.keys d ∧ uk ∈ TMap.keys d))
    ∧ (acc'.has_alpha = acc.has_alpha ∨ ak ∈ TMap.keys d) := by
  unfold processSource at h
  split at h
  · cases h
    exact ⟨Or.inl rfl, Or.inl rfl⟩
  · split at h
    case h_1 A B hA hB =>
      have hdk : dk ∈ TMap.keys d := (TMap.find_isSome d dk).mp (by rw [hA]; rfl)
      have huk : uk ∈ TMap.keys d := (TMap.find_isSome d uk).mp (by rw [hB]; rfl)
      split at h
      · cases h
      case h_2 ri rest hsh =>
        split at h
        · cases h
          exact ⟨Or.inl rfl, Or.inl rfl⟩
        · split at h
          · cases h
            exact ⟨Or.inl rfl, Or.inl rfl⟩
          · split at h
            case h_1 i0 o0 hdims =>
              split at h
              · cases h
                exact ⟨Or.inl rfl, Or.inl rfl⟩
              · exact ⟨Or.inr ⟨hdk, huk⟩,
                  processAlpha_has_alpha sqrtFn d w ak acc ri A B acc' h⟩
            case h_2 hdims =>
              refine ⟨Or.inr ⟨hdk, huk⟩, ?_⟩
              rcases processAlpha_has_alpha sqrtFn d w ak _ ri A B acc' h with h2 | h2
              · exact Or.inl h2
              · exact Or.inr h2
    case h_2 hmiss =>
      cases h
      exact ⟨Or.inl rfl, Or.inl rfl⟩

theorem mergePrefixPattern_entries (sqrtFn : α → α) (d1 d2 : TMap α) (s1 s2 : α)
    (dk uk ak : String) (es : List (String × Tensor α))
    (h : mergePrefixPattern sqrtFn d1 d2 s1 s2 dk uk ak = some (some es)) :
    ∀ p ∈ es, p.1 ∈ TMap.keys d1 ∨ p.1 ∈ TMap.keys d2 := by
  simp only [mergePrefixPattern, Option.bind_eq_bind] at h
  cases h1 : processSource sqrtFn d1 s1 dk uk ak emptyAccum with
  | none => rw [h1] at h; cases h
  | some a1 =>
    rw [h1] at h
    simp only [Option.some_bind] at h
    cases h2 : processSource sqrtFn d2 s2 dk uk ak a1 with
    | none => rw [h2] at h; cases h
    | some a2 =>
      rw [h2] at h
      simp only [Option.some_bind] at h
      split at h
      case isTrue hcond =>
        simp only [pure, Option.some.injEq] at h
        obtain ⟨i1, hal1⟩ := processSource_inv sqrtFn d1 s1 dk uk ak emptyAccum a1 h1
        obtain ⟨i2, hal2⟩ := processSource_inv sqrtFn d2 s2 dk uk ak a1 a2 h2
        have hkey : (dk ∈ TMap.keys d1 ∧ uk ∈ TMap.keys d1)
            ∨ (dk ∈ TMap.keys d2 ∧ uk ∈ TMap.keys d2) := by
          rcases i2 with h2eq | h2mem
          · rcases i1 with h1eq | h1mem
            · exfalso
              exact hcond.2.1 (by rw [h2eq, h1eq]; rfl)
            · exact Or.inl h1mem
          · exact Or.inr h2mem
        have halpha : a2.has_alpha = true → ak ∈ TMap.keys d1 ∨ ak ∈ TMap.keys d2 := by
          intro hA
          rcases hal2 with h2eq | h2mem
          · rcases hal1 with h1eq | h1mem
            · exfalso
              rw [h2eq, h1eq] at hA
              cases hA
            · exact Or.inl h1mem
          · exact Or.inr h2mem
        intro p hp
        rw [← h] at hp
        rcases List.mem_append.mp hp with hp2 | hp2
        · rcases List.mem_cons.mp hp2 with rfl | hp3
          · rcases hkey with ⟨hd, -⟩ | ⟨hd, -⟩
            · exact Or.inl hd
            · exact Or.inr hd
          · rcases List.mem_cons.mp hp3 with rfl | hp4
            · rcases hkey with ⟨-, hu⟩ | ⟨-, hu⟩
              · exact Or.inl hu
              · exact Or.inr hu
            · cases hp4
        · by_cases hA : a2.has_alpha = true
          · rw [if_pos hA] at hp2
            rcases List.mem_singleton.mp hp2 with rfl
            exact halpha hA
          · rw [if_neg hA] at hp2
            cases hp2
      case isFalse hcond =>
        simp only [pure, Option.some.injEq] at h
        cases h

theorem prefixFallback_keys (d1 d2 : TMap α) (s1 s2 : α) (pfx : String) :
    ∀ (ks : List String) (m m' : TMap α), prefixFallback d1 d2 s1 s2 pfx ks m = some m' →
      ∀ k', k' ∈ TMap.keys m' → k' ∈ TMap.keys m ∨ k' ∈ ks := by
  intro ks
  induction ks with
  | nil =>
    intro m m' h k' hk'
    simp only [prefixFallback, Option.some.injEq] at h
    subst h
    exact Or.inl hk'
  | cons k ks ih =>
    intro m m' h k' hk'
    simp only [prefixFallback, Option.bind_eq_bind] at h
    split at h
    · cases hr : rawPairCombine (TMap.find d1 k) (TMap.find d2 k) s1 s2 with
      | none => rw [hr] at h; cases h
      | some t? =>
        rw [hr] at h
        simp only [Option.some_bind] at h
        cases t? with
        | some t =>
          rcases ih (m.insert k t) m' h k' hk' with h2 | h2
          · rcases (TMap.keys_insert m k t k').mp h2 with h3 | h3
            · exact Or.inl h3
            · exact Or.inr (h3 ▸ List.mem_cons_self k ks)
          · exact Or.inr (List.mem_cons_of_mem k h2)
        | none =>
          rcases ih m m' h k' hk' with h2 | h2
          · exact Or.inl h2
          · exact Or.inr (List.mem_cons_of_mem k h2)
    · rcases ih m m' h k' hk' with h2 | h2
      · exact Or.inl h2
      · exact Or.inr (List.mem_cons_of_mem k h2)

theorem processPrefix_keys_sub (sqrtFn : α → α) (d1 d2 : TMap α) (s1 s2 : α) (pfx : String)
    (m m' : TMap α) (h : processPrefix sqrtFn d1 d2 s1 s2 pfx m = some m') :
    ∀ k', k' ∈ TMap.keys m' → k' ∈ TMap.keys m ∨ k' ∈ allKeys d1 d2 := by
  simp only [processPrefix, Option.bind_eq_bind] at h
  cases hp1 : mergePrefixPattern sqrtFn d1 d2 s1 s2 (pfx ++ sfx_down) (pfx ++ sfx_up)
      (pfx ++ sfx_alpha) with
  | none => rw [hp1] at h; cases h
  | some r1 =>
    rw [hp1] at h
    simp only [Option.some_bind] at h
    cases r1 with
    | some es =>
      simp only [pure, Option.some.injEq] at h
      intro k' hk'
      rw [← h] at hk'
      rcases insertEntries_keys_sub es m k' hk' with h2 | ⟨p, hp, hpk⟩
      · exact Or.inl h2
      · refine Or.inr ((mem_allKeys d1 d2 k').mpr ?_)
        exact hpk ▸ mergePrefixPattern_entries sqrtFn d1 d2 s1 s2 _ _ _ es hp1 p hp
    | none =>
      cases hp2 : mergePrefixPattern sqrtFn d1 d2 s1 s2 (pfx ++ sfx_A) (pfx ++ sfx_B)
          (pfx ++ sfx_alpha) with
      | none => rw [hp2] at h; cases h
      | some r2 =>
        rw [hp2] at h
        simp only [Option.some_bind] at h
        cases r2 with
        | some es =>
          simp only [pure, Option.some.injEq] at h
          intro k' hk'
          rw [← h] at hk'
          rcases insertEntries_keys_sub es m k' hk' with h2 | ⟨p, hp, hpk⟩
          · exact Or.inl h2
          · refine Or.inr ((mem_allKeys d1 d2 k').mpr ?_)
            exact hpk ▸ mergePrefixPattern_entries sqrtFn d1 d2 s1 s2 _ _ _ es hp2 p hp
        | none =>
          intro k' hk'
          rcases prefixFallback_keys d1 d2 s1 s2 pfx (TMap.keys d1) m m' h k' hk' with h2 | h2
          · exact Or.inl h2
          · exact Or.inr ((mem_allKeys d1 d2 k').mpr (Or.inl h2))

theorem processPrefixes_keys_sub (sqrtFn : α → α) (d1 d2 : TMap α) (s1 s2 : α) :
    ∀ (pfl : List String) (m m' : TMap α),
      processPrefixes sqrtFn d1 d2 s1 s2 pfl m = some m' →
      ∀ k', k' ∈ TMap.keys m' → k' ∈ TMap.keys m ∨ k' ∈ allKeys d1 d2 := by
  intro pfl
  induction pfl with
  | nil =>
    intro m m' h k' hk'
    simp only [processPrefixes, Option.some.injEq] at h
    subst h
    exact Or.inl hk'
  | cons pfx rest ih =>
    intro m m' h k' hk'
    simp only [processPrefixes, Option.bind_eq_bind] at h
    cases hp : processPrefix sqrtFn d1 d2 s1 s2 pfx m with
    | none => rw [hp] at h; cases h
    | some m1 =>
      rw [hp] at h
      simp only [Option.some_bind] at h
      rcases ih m1 m' h k' hk' with h2 | h2
      · exact processPrefix_keys_sub sqrtFn d1 d2 s1 s2 pfx m m1 hp k' h2
      · exact Or.inr h2

theorem finalPass_keys (d1 d2 : TMap α) (s1 s2 : α) :
    ∀ (ks : List String) (m m' : TMap α),
      (∀ k ∈ ks, (TMap.find d1 k).isSome ∨ (TMap.find d2 k).isSome) →
      finalPass d1 d2 s1 s2 ks m = some m' →
      ∀ k', k' ∈ TMap.keys m' ↔ k' ∈ TMap.keys m ∨ k' ∈ ks := by
  intro ks
  induction ks with
  | nil =>
    intro m m' _ h k'
    simp only [finalPass, Option.some.injEq] at h
    rw [← h]
    simp
  | cons k ks ih =>
    intro m m' hks h k'
    simp only [finalPass, Option.bind_eq_bind] at h
    split at h
    case isTrue hc =>
      rw [ih m m' (fun x hx => hks x (List.mem_cons_of_mem k hx)) h k']
      have hkm : k ∈ TMap.keys m := (contains_iff (TMap.keys m) k).mp hc
      constructor
      · rintro (h2 | h2)
        · exact Or.inl h2
        · exact Or.inr (List.mem_cons_of_mem k h2)
      · rintro (h2 | h2)
        · exact Or.inl h2
        · rcases List.mem_cons.mp h2 with rfl | h3
          · exact Or.inl hkm
          · exact Or.inr h3
    case isFalse hc =>
      cases hr : rawPairCombine (TMap.find d1 k) (TMap.find d2 k) s1 s2 with
      | none => rw [hr] at h; cases h
      | some t? =>
        rw [hr] at h
        simp only [Option.some_bind] at h
        cases t? with
        | some t =>
          rw [ih (m.insert k t) m' (fun x hx => hks x (List.mem_cons_of_mem k hx)) h k']
          rw [TMap.keys_insert]
          constructor
          · rintro ((h2 | h2) | h2)
            · exact Or.inl h2
            · exact Or.inr (h2 ▸ List.mem_cons_self k ks)
            · exact Or.inr (List.mem_cons_of_mem k h2)
          · rintro (h2 | h2)
            · exact Or.inl (Or.inl h2)
            · rcases List.mem_cons.mp h2 with rfl | h3
              · exact Or.inl (Or.inr rfl)
              · exact Or.inr h3
        | none =>
          exfalso
          have hiso := hks k (List.mem_cons_self k ks)
          cases hf1 : TMap.find d1 k with
          | some v1 =>
            cases hf2 : TMap.find d2 k with
            | some v2 =>
              rw [hf1, hf2] at hr
              simp only [rawPairCombine, Option.map_eq_some'] at hr
              obtain ⟨x, -, hx⟩ := hr
              cases hx
            | none =>
              rw [hf1, hf2] at hr
              simp only [rawPairCombine, Option.some.injEq] at hr
              cases hr
          | none =>
            cases hf2 : TMap.find d2 k with
            | some v2 =>
              rw [hf1, hf2] at hr
              simp only [rawPairCombine, Option.some.injEq] at hr
              cases hr
            | none =>
              rw [hf1, hf2] at hiso
              rcases hiso with h3 | h3 <;> cases h3

/-- Claim C10: the key set of a successful linear merge is exactly the union
of the input key sets — a one-sided key is kept, scaled by its side's
strength, even when that strength is 0 (a zero-valued tensor rather than an
omitted key) — and a successful structural-concatenation merge also has
exactly the union as its key set: no key outside the union is ever produced,
and the final catch-all pass covers every union key. -/
theorem c10_result_keys (sqrtFn : α → α) (d1 d2 : TMap α) (s1 s2 : α)
    (hnd1 : (TMap.keys d1).Nodup) (hnd2 : (TMap.keys d2).Nodup) :
    (∀ m, linear_merge_method d1 d2 s1 s2 = some m →
      (∀ k, k ∈ TMap.keys m ↔ k ∈ TMap.keys d1 ∨ k ∈ TMap.keys d2)
      ∧ (∀ k v1, TMap.find d1 k = some v1 → TMap.find d2 k = none →
          TMap.find m k = some (v1.scale s1))
      ∧ (∀ k v2, TMap.find d1 k = none → TMap.find d2 k = some v2 →
          TMap.find m k = some (v2.scale s2)))
    ∧ (∀ m, concatenation_merge_method sqrtFn d1 d2 s1 s2 = some m →
      ∀ k, k ∈ TMap.keys m ↔ k ∈ TMap.keys d1 ∨ k ∈ TMap.keys d2) := by
  constructor
  · intro m hm
    obtain ⟨hkeys, -⟩ := buildMerged_eq_some hm
    obtain ⟨hfind, -⟩ := buildMerged_find (allKeys_nodup d1 d2 hnd1 hnd2) hm
    refine ⟨?_, ?_, ?_⟩
    · intro k
      rw [hkeys]
      exact mem_allKeys d1 d2 k
    · intro k v1 hv1 hv2
      have hk : k ∈ allKeys d1 d2 := (mem_allKeys d1 d2 k).mpr
        (Or.inl ((TMap.find_isSome d1 k).mp (by rw [hv1]; rfl)))
      rw [hfind k hk]
      simp [mergeKey, hv1, hv2]
    · intro k v2 hv1 hv2
      have hk : k ∈ allKeys d1 d2 := (mem_allKeys d1 d2 k).mpr
        (Or.inr ((TMap.find_isSome d2 k).mp (by rw [hv2]; rfl)))
      rw [hfind k hk]
      simp [mergeKey, hv1, hv2]
  · intro m hm
    simp only [concatenation_merge_method] at hm
    split at hm
    · obtain ⟨hkeys, -⟩ := buildMerged_eq_some hm
      intro k
      rw [hkeys]
      exact mem_allKeys d1 d2 k
    · simp only [Option.bind_eq_bind] at hm
      cases hpp : processPrefixes sqrtFn d1 d2 s1 s2
          (sortStrings (collectPrefixes d1 d2)) [] with
      | none => rw [hpp] at hm; cases hm
      | some m1 =>
        rw [hpp] at hm
        simp only [Option.some_bind] at hm
        have hsub := processPrefixes_keys_sub sqrtFn d1 d2 s1 s2
          (sortStrings (collectPrefixes d1 d2)) [] m1 hpp
        have hks : ∀ k ∈ allKeys d1 d2,
            (TMap.find d1 k).isSome ∨ (TMap.find d2 k).isSome := by
          intro k hk
          rcases (mem_allKeys d1 d2 k).mp hk with h2 | h2
          · exact Or.inl ((TMap.find_isSome d1 k).mpr h2)
          · exact Or.inr ((TMap.find_isSome d2 k).mpr h2)
        intro k
        rw [finalPass_keys d1 d2 s1 s2 (allKeys d1 d2) m1 m hks hm k, ← mem_allKeys d1 d2 k]
        constructor
        · rintro (h2 | h2)
          · rcases hsub k h2 with h3 | h3
            · cases h3
            · exact h3
          · exact h2
        · exact Or.inr

/-- Evaluation of the concatenation merge on the two rank-1 single-module
LoRAs with both strengths 1, used to instantiate the key-set theorem. -/
theorem concat_eval_positive :
    concatenation_merge_method qSqrt c1map1 c1map2 (1 : ℚ) 1
      = some [(key_xd, Tensor.mk [2, 1] [1, 1]), (key_xu, Tensor.mk [1, 2] [1, 1])] := by
  have hfd1 : TMap.find c1map1 key_xd = some (Tensor.mk [1, 1] [1]) := by decide
  have hfu1 : TMap.find c1map1 key_xu = some (Tensor.mk [1, 1] [1]) := by decide
  have hfa1 : TMap.find c1map1 key_xa = none := by decide
  have hfd2 : TMap.find c1map2 key_xd = some (Tensor.mk [1, 1] [1]) := by decide
  have hfu2 : TMap.find c1map2 key_xu = some (Tensor.mk [1, 1] [1]) := by decide
  have hfa2 : TMap.find c1map2 key_xa = none := by decide
  have hq : qSqrt 1 = 1 := by norm_num [qSqrt]
  have h1 : processSource qSqrt c1map1 (1 : ℚ) key_xd key_xu key_xa emptyAccum
      = some (Accum.mk [Tensor.mk [1, 1] [1]] [Tensor.mk [1, 1] [1]] 1
          (some (1, 1)) false) := by
    simp only [processSource, hfd1, hfu1, hfa1, processAlpha, finishSource, emptyAccum]
    norm_num [Tensor.scale, hq]
  have h2 : processSource qSqrt c1map2 (1 : ℚ) key_xd key_xu key_xa
      (Accum.mk [Tensor.mk [1, 1] [1]] [Tensor.mk [1, 1] [1]] 1 (some (1, 1)) false)
      = some (Accum.mk [Tensor.mk [1, 1] [1], Tensor.mk [1, 1] [1]]
          [Tensor.mk [1, 1] [1], Tensor.mk [1, 1] [1]] 2 (some (1, 1)) false) := by
    simp only [processSource, hfd2, hfu2, hfa2, processAlpha, finishSource]
    norm_num [Tensor.scale, hq]
  have hpfx : collectPrefixes c1map1 c1map2 = ["x"] := by decide
  have hsort : sortStrings ["x"] = ["x"] := by decide
  have hkd : ("x" ++ sfx_down) = key_xd := by decide
  have hku : ("x" ++ sfx_up) = key_xu := by decide
  have hka : ("x" ++ sfx_alpha) = key_xa := by decide
  simp only [concatenation_merge_method, hpfx, hsort, List.isEmpty_cons, Bool.false_eq_true,
    if_false]
  have hpp : processPrefixes qSqrt c1map1 c1map2 (1 : ℚ) 1 ["x"] []
      = some [(key_xd, Tensor.mk [2, 1] [1, 1]), (key_xu, Tensor.mk [1, 2] [1, 1])] := by
    simp only [processPrefixes, processPrefix, mergePrefixPattern, hkd, hku, hka, h1, h2,
      Option.bind_eq_bind, Option.some_bind]
    decide
  simp only [hpp, Option.bind_eq_bind, Option.some_bind]
  decide

theorem c10_result_keys_witness :
    ((∀ k, k ∈ TMap.keys c10merged ↔ k ∈ TMap.keys c10map1 ∨ k ∈ TMap.keys c10map2)
      ∧ (∀ k v1, TMap.find c10map1 k = some v1 → TMap.find c10map2 k = none →
          TMap.find c10merged k = some (v1.scale 0))
      ∧ (∀ k v2, TMap.find c10map1 k = none → TMap.find c10map2 k = some v2 →
          TMap.find c10merged k = some (v2.scale 5)))
    ∧ (∀ k, k ∈ TMap.keys [(key_xd, Tensor.mk [2, 1] [(1 : ℚ), 1]),
          (key_xu, Tensor.mk [1, 2] [1, 1])]
        ↔ k ∈ TMap.keys c1map1 ∨ k ∈ TMap.keys c1map2) := by
  have hlin : linear_merge_method c10map1 c10map2 (0 : ℚ) 5 = some c10merged := by
    have hba : (("b" : String) == "a") = false := by decide
    have hab : (("a" : String) == "b") = false := by decide
    norm_num [linear_merge_method, buildMerged, allKeys, mergeKey, TMap.find, TMap.keys,
      Tensor.scale, List.find?, c10map1, c10map2, c10merged, key_a, key_b, hba, hab,
      List.replicate]
  exact ⟨(c10_result_keys qSqrt c10map1 c10map2 0 5 (by decide) (by decide)).1
      c10merged hlin,
    (c10_result_keys qSqrt c1map1 c1map2 1 1 (by decide) (by decide)).2
      [(key_xd, Tensor.mk [2, 1] [1, 1]), (key_xu, Tensor.mk [1, 2] [1, 1])]
      concat_eval_positive⟩
